import Mathlib

/-!
Verification model of the adaptive policy and scheduling core of the MASTERYAI
tutoring backend.

The definitions below are shallow embeddings of the Python sources:

* `backend/agents/review_scheduler.py` — adaptive SM-2 spaced repetition
  (`ReviewSchedulerAgent.schedule_review`, `get_retention_curve`);
* `backend/agents/rl_engine.py` — the five tabular learners
  (`StrategyBandit`, `DifficultyBandit`, `ActionQLearner`, `EngagementBandit`,
  `SchedulerBandit`) and the aggregate `RLEngine` with its
  `to_dict`/`from_dict` serialization;
* `backend/services/knowledge_graph.py` — prerequisite closure and the
  transfer-optimized topological sort (`compute_learning_path`).

Modelling conventions:

* Python floats are modelled as rationals (`ℚ`); the one place where a
  transcendental function occurs (the exponential forgetting curve) is
  modelled over `ℝ` with `Real.exp`.
* Python dicts are modelled as association lists with Python's dict update
  semantics (`aset` replaces the value of the first matching key in place,
  otherwise appends), which preserves Python's insertion-order iteration.
* Python sets are modelled as duplicate-free lists; every consumer of a set
  in the modelled code is order-insensitive (membership tests, max-heap
  content), so the choice of enumeration order is immaterial.
* `datetime` fields (`next_review` timestamps) are outside the model; none
  of the modelled properties mention them.
* Python's `round(x, n)` uses bankers rounding; we model it with Mathlib's
  `round` (half away from zero on ties). No quantity in any proved statement
  is evaluated at an exact half-way tie.
-/

/-- Association-list lookup, mirroring Python `dict.get`. -/
def alookup [DecidableEq α] : List (α × β) → α → Option β
  | [], _ => none
  | (k, v) :: rest, key => if key = k then some v else alookup rest key

/-- Association-list update, mirroring Python `dict.__setitem__`: the first
entry with the given key is replaced in place, otherwise the new entry is
appended at the end (Python dicts preserve insertion order). -/
def aset [DecidableEq α] (key : α) (val : β) : List (α × β) → List (α × β)
  | [] => [(key, val)]
  | (k, v) :: rest => if key = k then (key, val) :: rest else (k, v) :: aset key val rest

/-- Keys of an association list. -/
def akeys (l : List (α × β)) : List α := l.map Prod.fst

/-! ## SM-2 review scheduler (`backend/agents/review_scheduler.py`) -/

/-- A scheduler profile; the Python source stores these as 5-tuples
`(init_ef, min_ef, (ef_a, ef_b, ef_c), miscon_penalty, reset_interval)`
in `SM2_PROFILES` of `rl_engine.py`. -/
structure SM2Profile where
  init_ef : ℚ
  min_ef : ℚ
  ef_a : ℚ
  ef_b : ℚ
  ef_c : ℚ
  miscon_penalty : ℚ
  reset_interval : ℚ
deriving DecidableEq

/-- The fixed profile table `SM2_PROFILES` of `rl_engine.py`. -/
def SM2_PROFILES : List SM2Profile :=
  [ ⟨5/2, 13/10, 1/10, 2/25, 1/50, 3/20, 1⟩       -- standard (matches original)
  , ⟨23/10, 6/5, 3/25, 1/10, 3/100, 1/5, 1/2⟩     -- aggressive
  , ⟨27/10, 7/5, 2/25, 3/50, 1/100, 1/10, 3/2⟩    -- gentle
  , ⟨5/2, 13/10, 1/10, 2/25, 1/50, 1/4, 1⟩        -- high misconception penalty
  , ⟨12/5, 6/5, 11/100, 9/100, 1/40, 3/20, 3/4⟩ ] -- moderate-aggressive

/-- Python `DEFAULT_SM2_PROFILE = SM2_PROFILES[0]`. -/
def DEFAULT_SM2_PROFILE : SM2Profile := ⟨5/2, 13/10, 1/10, 2/25, 1/50, 3/20, 1⟩

/-- A review queue item (`ReviewItem` in `review_scheduler.py`); the
`next_review` timestamp is omitted (wall-clock time is outside the model). -/
structure ReviewItem where
  concept_id : String
  easiness_factor : ℚ
  repetition_count : ℕ
  interval_days : ℚ
  last_score : ℚ
  misconception_count : ℕ
deriving DecidableEq

/-- A fresh item as created by `ReviewItem(concept_id=...)`. -/
def ReviewItem.fresh (cid : String) : ReviewItem :=
  ⟨cid, 5/2, 0, 1, 0, 0⟩

/-- The pure numeric core of `ReviewSchedulerAgent.schedule_review`.
`misconActive` is `len(cs.misconceptions_active)` for the concept, the
profile is whatever `_get_sm2_profile` selected. Mirrors the source order:
quality from score, easiness-factor update, repetition/interval branch,
then the misconception penalty. -/
def scheduleReview (p : SM2Profile) (misconActive : ℕ) (item : ReviewItem)
    (score : ℚ) : ReviewItem :=
  let quality := score * 5
  let ef := max p.min_ef
    (item.easiness_factor + p.ef_a - (5 - quality) * (p.ef_b + (5 - quality) * p.ef_c))
  let intervalRep : ℚ × ℕ :=
    if 3 ≤ quality then
      if item.repetition_count = 0 then (p.reset_interval, item.repetition_count + 1)
      else if item.repetition_count = 1 then (p.reset_interval * 6, item.repetition_count + 1)
      else (item.interval_days * ef, item.repetition_count + 1)
    else
      (p.reset_interval, 0)
  let interval :=
    if 0 < misconActive then
      intervalRep.1 * (1 - p.miscon_penalty * (min misconActive 3 : ℕ))
    else intervalRep.1
  { concept_id := item.concept_id
    easiness_factor := ef
    repetition_count := intervalRep.2
    interval_days := interval
    last_score := score
    misconception_count := misconActive }

/-- One step of a review history: the profile selected for the call, the
active misconception count at the call, and the score. -/
abbrev SM2Step := SM2Profile × ℕ × ℚ

/-- Fold a finite sequence of `schedule_review` calls over an item. -/
def runSchedule (item : ReviewItem) (steps : List SM2Step) : ReviewItem :=
  steps.foldl (fun it st => scheduleReview st.1 st.2.1 it st.2.2) item

/-- The easiness factor produced by a single call is clamped below by the
profile minimum (the `max(min_ef, ...)` in the source). -/
theorem scheduleReview_min_ef (p : SM2Profile) (m : ℕ) (item : ReviewItem) (s : ℚ) :
    p.min_ef ≤ (scheduleReview p m item s).easiness_factor := by
  simp only [scheduleReview]
  exact le_max_left _ _

/-- C4: for every review item and every finite sequence of schedule_review
calls with scores in `[0, 1]`, after each call the easiness factor is at
least the `min_ef` of the profile applied by that call. -/
theorem C4_monotonic_easiness_bound (item : ReviewItem) (steps : List SM2Step)
    (hscores : ∀ st ∈ steps, 0 ≤ st.2.2 ∧ st.2.2 ≤ 1)
    (i : ℕ) (hi : i < steps.length) :
    (steps[i]).1.min_ef ≤ (runSchedule item (steps.take (i + 1))).easiness_factor := by
  have htake : steps.take (i + 1) = steps.take i ++ [steps[i]] := by
    rw [List.take_succ, List.getElem?_eq_getElem hi]
    rfl
  rw [runSchedule, htake, List.foldl_append]
  exact scheduleReview_min_ef _ _ _ _

/-- Witness for C4: a concrete two-call history where the bound evaluates. -/
theorem C4_monotonic_easiness_bound_witness :
    (([(DEFAULT_SM2_PROFILE, 1, (0:ℚ)), (DEFAULT_SM2_PROFILE, 0, 1)] : List SM2Step)[0]).1.min_ef ≤
      (runSchedule (ReviewItem.fresh "c")
        (([(DEFAULT_SM2_PROFILE, 1, (0:ℚ)), (DEFAULT_SM2_PROFILE, 0, 1)] : List SM2Step).take (0 + 1))).easiness_factor :=
  C4_monotonic_easiness_bound (ReviewItem.fresh "c")
    [(DEFAULT_SM2_PROFILE, 1, (0:ℚ)), (DEFAULT_SM2_PROFILE, 0, 1)]
    (by intro st hst; fin_cases hst <;> norm_num) 0 (by norm_num)

/-- A concrete failing item for the C3 counterexample: one active
misconception at review time. -/
def c3Item : ReviewItem := ⟨"c", 5/2, 3, 10, 1, 1⟩

/-- C3 counterexample: the claim "a failing score leaves `interval_days`
exactly equal to the profile's reset interval, for any prior history
including any misconception count" is false: with one active misconception
the standard profile yields `reset_interval * (1 - 0.15) = 0.85`, not `1`. -/
theorem C3_sm2_reset_counterexample :
    ¬ (∀ (p : SM2Profile) (misc : ℕ) (item : ReviewItem) (score : ℚ),
        score < 3/5 →
        (scheduleReview p misc item score).repetition_count = 0 ∧
        (scheduleReview p misc item score).interval_days = p.reset_interval) := by
  intro h
  have h2 := (h DEFAULT_SM2_PROFILE 1 c3Item (1/5) (by norm_num)).2
  have hval : (scheduleReview DEFAULT_SM2_PROFILE 1 c3Item (1/5)).interval_days = 17/20 := by
    norm_num [scheduleReview, DEFAULT_SM2_PROFILE, c3Item]
  rw [hval] at h2
  norm_num [DEFAULT_SM2_PROFILE] at h2

/-- C3 amended: a failing score (`score < 0.6`, i.e. quality `< 3`) always
resets the repetition count to 0 and sets the interval to the profile's
reset interval multiplied by the misconception penalty factor
`1 - miscon_penalty * min(misconActive, 3)` (the factor is 1 when there are
no active misconceptions). -/
theorem C3_sm2_reset_amended (p : SM2Profile) (misc : ℕ) (item : ReviewItem)
    (score : ℚ) (hfail : score < 3/5) :
    (scheduleReview p misc item score).repetition_count = 0 ∧
    (scheduleReview p misc item score).interval_days =
      p.reset_interval *
        (if 0 < misc then 1 - p.miscon_penalty * (min misc 3 : ℕ) else 1) := by
  have hq : ¬ (3 ≤ score * 5) := by nlinarith
  constructor
  · simp only [scheduleReview, if_neg hq]
  · simp only [scheduleReview, if_neg hq]
    by_cases hm : 0 < misc
    · simp [hm]
    · simp [hm]

/-- Witness for C3 amended at a concrete failing review. -/
theorem C3_sm2_reset_amended_witness :
    (scheduleReview DEFAULT_SM2_PROFILE 1 c3Item (1/5)).repetition_count = 0 ∧
    (scheduleReview DEFAULT_SM2_PROFILE 1 c3Item (1/5)).interval_days =
      DEFAULT_SM2_PROFILE.reset_interval *
        (if 0 < 1 then 1 - DEFAULT_SM2_PROFILE.miscon_penalty * (min 1 3 : ℕ) else 1) :=
  C3_sm2_reset_amended DEFAULT_SM2_PROFILE 1 c3Item (1/5) (by norm_num)

/-! ## Retention curve (`ReviewSchedulerAgent.get_retention_curve`) -/

/-- The forgetting-curve value computed by `get_retention_curve`:
`math.exp(-days_since / max(stability, 0.1))`. -/
noncomputable def retentionRaw (daysSince stability : ℝ) : ℝ :=
  Real.exp (-(daysSince / max stability (1/10)))

/-- Python `round(x, 3)` on the retention value, as applied to the returned
dictionary entry. -/
noncomputable def round3 (x : ℝ) : ℝ := ((round (x * 1000) : ℤ) : ℝ) / 1000

/-- Stability of an item: `interval_days * easiness_factor`. -/
def stabilityOf (item : ReviewItem) : ℚ :=
  item.interval_days * item.easiness_factor

/-- Retention of an item at a given number of days since last review
(the value before the final 3-decimal rounding). -/
noncomputable def retentionAt (item : ReviewItem) (daysSince : ℝ) : ℝ :=
  retentionRaw daysSince ((stabilityOf item : ℚ) : ℝ)

/-- The retention value in the dictionary returned by
`get_retention_curve` (rounded to three decimals). -/
noncomputable def retentionReturnedAt (item : ReviewItem) (daysSince : ℝ) : ℝ :=
  round3 (retentionAt item daysSince)

/-- Item for the C6 counterexample: interval 1 day, easiness factor 1,
hence stability 1. -/
def c6Item : ReviewItem := ⟨"c", 1, 0, 1, 0, 0⟩

theorem exp_twenty_ge : (3125 : ℝ) ≤ Real.exp 20 := by
  have h4 : (5 : ℝ) ≤ Real.exp 4 := by
    have := Real.add_one_le_exp (4 : ℝ)
    linarith
  calc (3125 : ℝ) = 5 ^ 5 := by norm_num
    _ ≤ (Real.exp 4) ^ 5 := pow_le_pow_left (by norm_num) h4 5
    _ = Real.exp 20 := by
        rw [← Real.exp_nat_mul]
        norm_num

theorem round3_exp_neg_eq_zero {d : ℝ} (hd : 20 ≤ d) : round3 (Real.exp (-d)) = 0 := by
  have hpos : 0 < Real.exp (-d) := Real.exp_pos _
  have hle : Real.exp (-d) ≤ Real.exp (-20) := Real.exp_le_exp.mpr (by linarith)
  have h20 : Real.exp (-20 : ℝ) ≤ 1 / 3125 := by
    rw [Real.exp_neg]
    rw [one_div]
    exact inv_le_inv_of_le (by norm_num) exp_twenty_ge
  have hz : round (Real.exp (-d) * 1000) = 0 := by
    rw [round_eq_zero_iff]
    constructor
    · nlinarith
    · nlinarith
  rw [round3, hz]
  norm_num

/-- C6 counterexample: the retention value actually returned by
`get_retention_curve` is rounded to three decimals, so it is not strictly
decreasing in the days since last review: at stability 1, days 20 and 21
both return exactly 0. -/
theorem C6_retention_decay_counterexample :
    ¬ (∀ (item : ReviewItem) (d₁ d₂ : ℝ), 0 ≤ d₁ → d₁ < d₂ →
        retentionReturnedAt item d₂ < retentionReturnedAt item d₁) := by
  intro h
  have h20 : retentionReturnedAt c6Item 20 = 0 := by
    rw [retentionReturnedAt, retentionAt, retentionRaw]
    have hs : ((stabilityOf c6Item : ℚ) : ℝ) = 1 := by
      norm_num [stabilityOf, c6Item]
    rw [hs]
    have hmax : max (1 : ℝ) (1/10) = 1 := by norm_num
    rw [hmax]
    norm_num
    exact round3_exp_neg_eq_zero (by norm_num)
  have h21 : retentionReturnedAt c6Item 21 = 0 := by
    rw [retentionReturnedAt, retentionAt, retentionRaw]
    have hs : ((stabilityOf c6Item : ℚ) : ℝ) = 1 := by
      norm_num [stabilityOf, c6Item]
    rw [hs]
    have hmax : max (1 : ℝ) (1/10) = 1 := by norm_num
    rw [hmax]
    norm_num
    exact round3_exp_neg_eq_zero (by norm_num)
  have := h c6Item 20 21 (by norm_num) (by norm_num)
  rw [h20, h21] at this
  exact absurd this (by norm_num)

theorem round_mono_of_le {x y : ℝ} (h : x ≤ y) : round x ≤ round y := by
  rw [round_eq, round_eq]
  exact Int.floor_mono (by linarith)

/-- C6 amended: for fixed stability the retention value computed by the
forgetting curve (before the final 3-decimal rounding of the returned
dictionary) is strictly decreasing in the days since last review; the
returned, rounded value is weakly decreasing; and at zero days since
review the returned value equals exactly 1. -/
theorem C6_retention_decay_amended (item : ReviewItem) (d₁ d₂ : ℝ) (h : d₁ < d₂) :
    retentionAt item d₂ < retentionAt item d₁ ∧
    retentionReturnedAt item d₂ ≤ retentionReturnedAt item d₁ ∧
    retentionReturnedAt item 0 = 1 := by
  have hM : (0 : ℝ) < max ((stabilityOf item : ℚ) : ℝ) (1/10) :=
    lt_of_lt_of_le (by norm_num) (le_max_right _ _)
  have hstrict : retentionAt item d₂ < retentionAt item d₁ := by
    rw [retentionAt, retentionAt, retentionRaw, retentionRaw]
    apply Real.exp_lt_exp.mpr
    have : d₁ / max ((stabilityOf item : ℚ) : ℝ) (1/10) <
        d₂ / max ((stabilityOf item : ℚ) : ℝ) (1/10) :=
      div_lt_div_of_pos_right h hM
    linarith
  refine ⟨hstrict, ?_, ?_⟩
  · rw [retentionReturnedAt, retentionReturnedAt, round3, round3]
    have hr : round (retentionAt item d₂ * 1000) ≤ round (retentionAt item d₁ * 1000) :=
      round_mono_of_le (by nlinarith)
    have : ((round (retentionAt item d₂ * 1000) : ℤ) : ℝ) ≤
        ((round (retentionAt item d₁ * 1000) : ℤ) : ℝ) := by exact_mod_cast hr
    linarith
  · rw [retentionReturnedAt, retentionAt, retentionRaw]
    have hzero : -(0 / max ((stabilityOf item : ℚ) : ℝ) (1/10)) = 0 := by
      rw [zero_div, neg_zero]
    rw [hzero, Real.exp_zero, round3, one_mul]
    rw [show ((1000 : ℝ)) = ((1000 : ℤ) : ℝ) by norm_num, round_intCast]
    norm_num

/-- Witness for C6 amended at a concrete item and pair of days. -/
theorem C6_retention_decay_amended_witness :
    retentionAt c6Item 1 < retentionAt c6Item 0 ∧
    retentionReturnedAt c6Item 1 ≤ retentionReturnedAt c6Item 0 ∧
    retentionReturnedAt c6Item 0 = 1 :=
  C6_retention_decay_amended c6Item 0 1 (by norm_num)

/-! ## RL engine (`backend/agents/rl_engine.py`): shared tables and constants -/

/-- Python `ALL_STRATEGIES`. -/
def ALL_STRATEGIES : List String :=
  ["socratic", "worked_examples", "analogy", "debugging_exercise", "explain_back"]

/-- Python `QL_ACTIONS`. -/
def QL_ACTIONS : List String :=
  ["teach", "practice", "test", "reteach", "skip_ahead", "ask_learner"]

/-- Python `DIFFICULTY_LEVELS`. -/
def DIFFICULTY_LEVELS : List ℤ := [1, 2, 3]

/-- Python `MASTERY_THRESHOLDS`. -/
def MASTERY_THRESHOLDS : List ℚ := [11/20, 3/5, 13/20, 7/10, 3/4, 4/5]

/-- Python `RETEST_MULTIPLIERS`. -/
def RETEST_MULTIPLIERS : List ℚ := [9/20, 1/2, 57/100, 13/20, 7/10]

/-- An inner bandit-table row `{action_key: [total_reward, count]}`. -/
abbrev RewardRow (κ : Type) := List (κ × ℚ × ℕ)

/-- A contextual bandit table `{context_key: {action_key: [total_reward, count]}}`. -/
abbrev RewardTable (κ : Type) := List (String × RewardRow κ)

/-- The two-line accumulation pattern of every `update` in `rl_engine.py`:
seed the entry with `[0.0, 0]` when absent, then add the reward and
increment the count. -/
def bumpEntry [DecidableEq κ] (key : κ) (reward : ℚ) (row : RewardRow κ) : RewardRow κ :=
  let seeded := if alookup row key = none then aset key (0, 0) row else row
  let cur := (alookup seeded key).getD (0, 0)
  aset key (cur.1 + reward, cur.2 + 1) seeded

/-- Outer-table accumulation: seed the context row with `{}` when absent,
then bump the inner entry. -/
def bumpTable [DecidableEq κ] (ctx : String) (key : κ) (reward : ℚ)
    (t : RewardTable κ) : RewardTable κ :=
  let seeded := if alookup t ctx = none then aset ctx [] t else t
  let inner := (alookup seeded ctx).getD []
  aset ctx (bumpEntry key reward inner) seeded

/-! ### Layer 1: strategy bandit -/

/-- `StrategyBandit`: each arm maps a strategy name to its Beta parameters
`[alpha, beta]` (successes+1, failures+1). -/
structure StrategyBandit where
  arms : List (String × ℚ × ℚ)
deriving DecidableEq

/-- `StrategyBandit.__init__`: every fixed strategy starts at `Beta(1, 1)`. -/
def StrategyBandit.init : StrategyBandit :=
  ⟨ALL_STRATEGIES.map (fun s => (s, 1, 1))⟩

/-- `StrategyBandit.update`: seed an unknown arm with `[1, 1]`, then
`alpha += score`, `beta += (1 - score)`. -/
def StrategyBandit.update (b : StrategyBandit) (strategy : String) (score : ℚ) :
    StrategyBandit :=
  let seeded := if alookup b.arms strategy = none then aset strategy (1, 1) b.arms else b.arms
  let cur := (alookup seeded strategy).getD (1, 1)
  ⟨aset strategy (cur.1 + score, cur.2 + (1 - score)) seeded⟩

/-- `StrategyBandit.select`: Thompson sampling. The per-arm Beta draw of
`random.betavariate` is abstracted as an arbitrary `sampler` argument; the
iteration keeps the first arm whose sample strictly exceeds the best so
far, starting from `ALL_STRATEGIES[0]` with best sample `-1.0`, and skips
excluded arms only when `exclude` is non-empty (Python truthiness). -/
def StrategyBandit.select (b : StrategyBandit) (exclude : List String)
    (sampler : String → ℚ → ℚ → ℚ) : String :=
  (b.arms.foldl (fun acc e =>
      if exclude ≠ [] ∧ e.1 ∈ exclude then acc
      else
        let smp := sampler e.1 e.2.1 e.2.2
        if acc.2 < smp then (e.1, smp) else acc)
    (ALL_STRATEGIES.headD "", -1)).1

/-- Expected value of an arm, `alpha / (alpha + beta)`. -/
def evOf (e : String × ℚ × ℚ) : ℚ := e.2.1 / (e.2.1 + e.2.2)

/-- Loop body of `StrategyBandit.get_best`: keep the arm whose expected
value strictly exceeds the best seen so far. -/
def bestStep (acc : String × ℚ) (e : String × ℚ × ℚ) : String × ℚ :=
  if acc.2 < evOf e then (e.1, evOf e) else acc

/-- `StrategyBandit.get_best`: pure exploitation, the arm with the highest
expected value `alpha / (alpha + beta)`, first arm winning ties, starting
from `ALL_STRATEGIES[0]` at best expected value `-1.0`. -/
def StrategyBandit.get_best (b : StrategyBandit) : String :=
  (b.arms.foldl bestStep (ALL_STRATEGIES.headD "", -1)).1

/-! ### Layer 2: difficulty bandit -/

/-- `_discretize_velocity`. -/
def discretizeVelocity (v : ℚ) : String :=
  if v < 7/10 then "slow" else if 13/10 < v then "fast" else "normal"

/-- `_discretize_calibration`. -/
def discretizeCalibration (g : ℚ) : String :=
  if 3/20 < g then "over" else if g < -(3/20) then "under" else "calibrated"

/-- `_discretize_misconceptions`. -/
def discretizeMisconceptions (c : ℕ) : String :=
  if c = 0 then "none" else if c ≤ 2 then "some" else "many"

/-- `DifficultyBandit._context_key`. -/
def difficultyContextKey (v g : ℚ) (c : ℕ) : String :=
  discretizeVelocity v ++ "_" ++ discretizeCalibration g ++ "_" ++ discretizeMisconceptions c

/-- `DifficultyBandit`: three context tables plus the update counter. -/
structure DifficultyBandit where
  difficulty_table : RewardTable ℤ
  threshold_table : RewardTable ℚ
  retest_table : RewardTable ℚ
  total_updates : ℕ
deriving DecidableEq

def DifficultyBandit.init : DifficultyBandit := ⟨[], [], [], 0⟩

/-- The `epsilon` property: `max(0.05, 0.2 - (total_updates / 200) * 0.15)`. -/
def DifficultyBandit.epsilon (b : DifficultyBandit) : ℚ :=
  max (1/20) (1/5 - ((b.total_updates : ℚ) / 200) * (3/20))

/-- `DifficultyBandit.update`: bumps the difficulty and threshold tables for
the discretized context and increments the shared counter. -/
def DifficultyBandit.update (b : DifficultyBandit) (velocity cal_gap : ℚ)
    (miscon : ℕ) (difficulty : ℤ) (threshold : ℚ) (reward : ℚ) : DifficultyBandit :=
  let ctx := difficultyContextKey velocity cal_gap miscon
  { difficulty_table := bumpTable ctx difficulty reward b.difficulty_table
    threshold_table := bumpTable ctx threshold reward b.threshold_table
    retest_table := b.retest_table
    total_updates := b.total_updates + 1 }

/-- `DifficultyBandit.update_retest`: bumps only the retest table (and, as
in the source, does not touch `total_updates`). -/
def DifficultyBandit.update_retest (b : DifficultyBandit) (velocity cal_gap : ℚ)
    (miscon : ℕ) (multiplier : ℚ) (reward : ℚ) : DifficultyBandit :=
  let ctx := difficultyContextKey velocity cal_gap miscon
  { b with retest_table := bumpTable ctx multiplier reward b.retest_table }

/-! ### Layer 3: action Q-learner -/

/-- `ActionQLearner`: tabular Q-values with fixed hyperparameters. -/
structure ActionQLearner where
  q_table : List (String × List (String × ℚ))
  alpha : ℚ
  gamma : ℚ
  epsilon : ℚ
  total_updates : ℕ
deriving DecidableEq

/-- `ActionQLearner.__init__` defaults. -/
def ActionQLearner.init : ActionQLearner := ⟨[], 1/10, 9/10, 3/20, 0⟩

/-- Python `max(values)` over a list, `0.0` when empty (the
`max(next_q_values.values()) if next_q_values else 0.0` idiom). -/
def listMaxD (l : List ℚ) : ℚ :=
  match l with
  | [] => 0
  | x :: xs => xs.foldl max x

/-- The seeding half of `ActionQLearner.update`: ensure `q_table[s]` exists
and `q_table[s][a]` exists (defaulting to `0.0`), as the source does before
reading `next_q_values`. -/
def seedQ (ql : ActionQLearner) (s a : String) : List (String × List (String × ℚ)) :=
  let t1 := if alookup ql.q_table s = none then aset s [] ql.q_table else ql.q_table
  let inner := (alookup t1 s).getD []
  let inner2 := if alookup inner a = none then aset a 0 inner else inner
  aset s inner2 t1

/-- `ActionQLearner.update`: one-step Q-learning update. The max over the
next state's Q-values is taken, as in the source, after the `(s, a)` entry
has been seeded. -/
def ActionQLearner.update (ql : ActionQLearner) (s a : String) (reward : ℚ)
    (ns : String) : ActionQLearner :=
  let t := seedQ ql s a
  let current := (alookup ((alookup t s).getD []) a).getD 0
  let nextVals := (alookup t ns).getD []
  let maxNext := listMaxD (nextVals.map Prod.snd)
  let newVal := current + ql.alpha * (reward + ql.gamma * maxNext - current)
  { ql with
      q_table := aset s (aset a newVal ((alookup t s).getD [])) t
      total_updates := ql.total_updates + 1 }

/-- Stored Q-value of a (state, action) pair. -/
def lookupQ (t : List (String × List (String × ℚ))) (s a : String) : Option ℚ :=
  alookup ((alookup t s).getD []) a

/-! ### Layers 4 and 5: engagement and scheduler profile bandits -/

/-- `_bucket_session_duration`. -/
def bucketSessionDuration (minutes : ℚ) : String :=
  if minutes < 15 then "short" else if minutes < 45 then "medium" else "long"

/-- `_bucket_performance` (mean of the last five scores). -/
def bucketPerformance (scores : List ℚ) : String :=
  if scores = [] then "unknown"
  else
    let r := scores.drop (scores.length - 5)
    let avg := r.sum / (r.length : ℚ)
    if avg < 2/5 then "low" else if 7/10 < avg then "high" else "medium"

/-- `_bucket_pace` (mean of the last five response times). -/
def bucketPace (times : List ℚ) : String :=
  if times = [] then "unknown"
  else
    let r := times.drop (times.length - 5)
    let avg := r.sum / (r.length : ℚ)
    if avg < 20 then "fast" else if 120 < avg then "slow" else "normal"

/-- `EngagementBandit._context_key`. -/
def engagementContextKey (minutes : ℚ) (scores times : List ℚ) : String :=
  bucketSessionDuration minutes ++ "_" ++ bucketPerformance scores ++ "_" ++ bucketPace times

/-- `EngagementBandit`. -/
structure EngagementBandit where
  profile_table : RewardTable ℤ
  total_updates : ℕ
deriving DecidableEq

def EngagementBandit.init : EngagementBandit := ⟨[], 0⟩

/-- The `epsilon` property of `EngagementBandit` (same formula as the
difficulty bandit, own counter). -/
def EngagementBandit.epsilon (b : EngagementBandit) : ℚ :=
  max (1/20) (1/5 - ((b.total_updates : ℚ) / 200) * (3/20))

/-- `EngagementBandit.update`. -/
def EngagementBandit.update (b : EngagementBandit) (minutes : ℚ)
    (scores times : List ℚ) (idx : ℤ) (reward : ℚ) : EngagementBandit :=
  { profile_table :=
      bumpTable (engagementContextKey minutes scores times) idx reward b.profile_table
    total_updates := b.total_updates + 1 }

/-- `_bucket_review_success`. -/
def bucketReviewSuccess (scores : List ℚ) : String :=
  if scores = [] then "unknown"
  else
    let avg := scores.sum / (scores.length : ℚ)
    if avg < 1/2 then "low" else if 4/5 < avg then "high" else "medium"

/-- `_bucket_easiness`. -/
def bucketEasiness (efs : List ℚ) : String :=
  if efs = [] then "unknown"
  else
    let avg := efs.sum / (efs.length : ℚ)
    if avg < 2 then "hard" else if 14/5 < avg then "easy" else "normal"

/-- `_bucket_misconception_density`. -/
def bucketMisconDensity (count total : ℕ) : String :=
  if total = 0 then "unknown"
  else
    let ratio := (count : ℚ) / (total : ℚ)
    if ratio = 0 then "none" else if ratio < 3/10 then "some" else "many"

/-- `SchedulerBandit._context_key`. -/
def schedulerContextKey (reviewScores efs : List ℚ) (miscon total : ℕ) : String :=
  bucketReviewSuccess reviewScores ++ "_" ++ bucketEasiness efs ++ "_" ++
    bucketMisconDensity miscon total

/-- `SchedulerBandit`. -/
structure SchedulerBandit where
  profile_table : RewardTable ℤ
  total_updates : ℕ
deriving DecidableEq

def SchedulerBandit.init : SchedulerBandit := ⟨[], 0⟩

/-- The `epsilon` property of `SchedulerBandit`. -/
def SchedulerBandit.epsilon (b : SchedulerBandit) : ℚ :=
  max (1/20) (1/5 - ((b.total_updates : ℚ) / 200) * (3/20))

/-- `SchedulerBandit.update`. -/
def SchedulerBandit.update (b : SchedulerBandit) (reviewScores efs : List ℚ)
    (miscon total : ℕ) (idx : ℤ) (reward : ℚ) : SchedulerBandit :=
  { profile_table :=
      bumpTable (schedulerContextKey reviewScores efs miscon total) idx reward b.profile_table
    total_updates := b.total_updates + 1 }

/-- The common shape of the shared decay formula as the spec states it:
`max(0.05, 0.20 - 0.15 * min(n / 200, 1))`. -/
def specEpsilon (n : ℕ) : ℚ :=
  max (1/20) (1/5 - (3/20) * min ((n : ℚ) / 200) 1)

theorem epsilon_formula_eq (n : ℕ) :
    max (1/20) (1/5 - ((n : ℚ) / 200) * (3/20)) = specEpsilon n := by
  rw [specEpsilon]
  rcases le_total ((n : ℚ) / 200) 1 with hle | hge
  · rw [min_eq_left hle]
    ring_nf
  · rw [min_eq_right hge]
    have h1 : (1:ℚ)/5 - ((n : ℚ) / 200) * (3/20) ≤ 1/20 := by nlinarith
    rw [max_eq_left (by norm_num : (1:ℚ)/20 ≥ 1/5 - (3/20) * 1)]
    exact max_eq_left h1

/-- C9: for every update counter value, the exploration rate of the
difficulty bandit — and of the engagement and scheduler bandits, which use
the same formula on their own counters — equals
`max(0.05, 0.20 - 0.15 * min(updates / 200, 1))`. -/
theorem C9_epsilon_decay (db : DifficultyBandit) (eb : EngagementBandit)
    (sb : SchedulerBandit) :
    db.epsilon = specEpsilon db.total_updates ∧
    eb.epsilon = specEpsilon eb.total_updates ∧
    sb.epsilon = specEpsilon sb.total_updates :=
  ⟨epsilon_formula_eq _, epsilon_formula_eq _, epsilon_formula_eq _⟩

theorem select_skips_all (exclude : List String) (sampler : String → ℚ → ℚ → ℚ)
    (arms : List (String × ℚ × ℚ)) (acc : String × ℚ)
    (h : ∀ e ∈ arms, e.1 ∈ exclude) :
    arms.foldl (fun acc e =>
      if exclude ≠ [] ∧ e.1 ∈ exclude then acc
      else
        let smp := sampler e.1 e.2.1 e.2.2
        if acc.2 < smp then (e.1, smp) else acc) acc = acc := by
  induction arms generalizing acc with
  | nil => rfl
  | cons e rest ih =>
    have he : e.1 ∈ exclude := h e (List.mem_cons_self e rest)
    have hne : exclude ≠ [] := by
      intro hnil
      rw [hnil] at he
      exact absurd he (List.not_mem_nil _)
    rw [List.foldl_cons, if_pos ⟨hne, he⟩]
    exact ih _ (fun x hx => h x (List.mem_cons_of_mem e hx))

/-- C10: `StrategyBandit.select` is total even when the exclude list covers
every arm: no arm is sampled and the initial value `ALL_STRATEGIES[0]`,
the strategy "socratic", is returned. -/
theorem C10_select_total_when_all_excluded (b : StrategyBandit)
    (exclude : List String) (sampler : String → ℚ → ℚ → ℚ)
    (hcover : ∀ s ∈ akeys b.arms, s ∈ exclude) :
    b.select exclude sampler = "socratic" := by
  rw [StrategyBandit.select, select_skips_all]
  · rfl
  · intro e he
    exact hcover e.1 (List.mem_map_of_mem Prod.fst he)

/-- Witness for C10: the fresh bandit with every fixed strategy excluded. -/
theorem C10_select_total_when_all_excluded_witness :
    StrategyBandit.select StrategyBandit.init ALL_STRATEGIES (fun _ _ _ => 0) = "socratic" :=
  C10_select_total_when_all_excluded StrategyBandit.init ALL_STRATEGIES
    (fun _ _ _ => 0) (by decide)

/-! ### Association-list lemmas -/

theorem alookup_aset_self [DecidableEq α] (k : α) (v : β) (l : List (α × β)) :
    alookup (aset k v l) k = some v := by
  induction l with
  | nil => simp [aset, alookup]
  | cons e rest ih =>
    by_cases h : k = e.1
    · simp [aset, h, alookup]
    · simp only [aset]
      rw [if_neg (by simpa using h)]
      simp only [alookup]
      rw [if_neg h]
      exact ih

theorem alookup_aset_ne [DecidableEq α] {k k' : α} (h : k' ≠ k) (v : β)
    (l : List (α × β)) : alookup (aset k v l) k' = alookup l k' := by
  induction l with
  | nil => simp [aset, alookup, h]
  | cons e rest ih =>
    by_cases he : k = e.1
    · subst he
      simp only [aset, if_pos rfl, alookup, if_neg h]
    · simp only [aset]
      rw [if_neg (by simpa using he)]
      by_cases hk : k' = e.1
      · simp [alookup, hk]
      · simp only [alookup]
        rw [if_neg hk, if_neg hk]
        exact ih

theorem alookup_eq_none_iff [DecidableEq α] {l : List (α × β)} {k : α} :
    alookup l k = none ↔ k ∉ akeys l := by
  induction l with
  | nil => simp [alookup, akeys]
  | cons e rest ih =>
    by_cases h : k = e.1
    · simp [alookup, h, akeys]
    · simp [alookup, h, akeys, ih]

theorem alookup_mem [DecidableEq α] {l : List (α × β)} {k : α} {v : β}
    (h : alookup l k = some v) : (k, v) ∈ l := by
  induction l with
  | nil => simp [alookup] at h
  | cons e rest ih =>
    obtain ⟨k1, v1⟩ := e
    rw [alookup] at h
    by_cases he : k = k1
    · rw [if_pos he] at h
      simp only [Option.some.injEq] at h
      subst he
      subst h
      exact List.mem_cons_self _ _
    · rw [if_neg he] at h
      exact List.mem_cons_of_mem _ (ih h)

theorem mem_alookup_of_nodup [DecidableEq α] {l : List (α × β)} {k : α} {v : β}
    (hnd : (akeys l).Nodup) (h : (k, v) ∈ l) : alookup l k = some v := by
  induction l with
  | nil => simp at h
  | cons e rest ih =>
    rw [akeys, List.map_cons, List.nodup_cons] at hnd
    rcases List.mem_cons.mp h with heq | hmem
    · rw [← heq, alookup, if_pos rfl]
    · have hk : k ≠ e.1 := by
        intro hke
        exact hnd.1 (hke ▸ List.mem_map_of_mem Prod.fst hmem)
      rw [alookup, if_neg hk]
      exact ih hnd.2 hmem

theorem mem_aset_self [DecidableEq α] (k : α) (v : β) (l : List (α × β)) :
    (k, v) ∈ aset k v l := by
  induction l with
  | nil => simp [aset]
  | cons e rest ih =>
    by_cases h : k = e.1
    · simp [aset, h]
    · simp only [aset]
      rw [if_neg h]
      exact List.mem_cons_of_mem _ ih

theorem mem_aset_of_ne [DecidableEq α] {l : List (α × β)} {e : α × β} {k : α}
    (he : e ∈ l) (hk : e.1 ≠ k) (v : β) : e ∈ aset k v l := by
  induction l with
  | nil => simp at he
  | cons x rest ih =>
    by_cases hx : k = x.1
    · simp only [aset, if_pos hx]
      rcases List.mem_cons.mp he with rfl | hmem
      · exact absurd hx.symm hk
      · exact List.mem_cons_of_mem _ hmem
    · simp only [aset, if_neg hx]
      rcases List.mem_cons.mp he with rfl | hmem
      · exact List.mem_cons_self _ _
      · exact List.mem_cons_of_mem _ (ih hmem)

theorem mem_aset_iff_of_nodup [DecidableEq α] {l : List (α × β)} {k : α}
    (hnd : (akeys l).Nodup) (v : β) (e : α × β) :
    e ∈ aset k v l ↔ e = (k, v) ∨ (e ∈ l ∧ e.1 ≠ k) := by
  induction l with
  | nil => simp [aset]
  | cons x rest ih =>
    rw [akeys, List.map_cons, List.nodup_cons] at hnd
    by_cases hx : k = x.1
    · subst hx
      simp only [aset, if_pos rfl]
      constructor
      · intro hmem
        rcases List.mem_cons.mp hmem with rfl | hmem
        · exact Or.inl rfl
        · refine Or.inr ⟨List.mem_cons_of_mem _ hmem, ?_⟩
          intro hek
          exact hnd.1 (hek ▸ List.mem_map_of_mem Prod.fst hmem)
      · rintro (rfl | ⟨hmem, hne⟩)
        · exact List.mem_cons_self _ _
        · rcases List.mem_cons.mp hmem with rfl | hmem
          · exact absurd rfl hne
          · exact List.mem_cons_of_mem _ hmem
    · simp only [aset, if_neg hx]
      constructor
      · intro hmem
        rcases List.mem_cons.mp hmem with rfl | hmem
        · exact Or.inr ⟨List.mem_cons_self _ _, fun h => hx h.symm⟩
        · rcases (ih hnd.2).mp hmem with rfl | ⟨hm, hne⟩
          · exact Or.inl rfl
          · exact Or.inr ⟨List.mem_cons_of_mem _ hm, hne⟩
      · rintro (rfl | ⟨hmem, hne⟩)
        · exact List.mem_cons_of_mem _ ((ih hnd.2).mpr (Or.inl rfl))
        · rcases List.mem_cons.mp hmem with rfl | hmem
          · exact List.mem_cons_self _ _
          · exact List.mem_cons_of_mem _ ((ih hnd.2).mpr (Or.inr ⟨hmem, hne⟩))

theorem akeys_aset_of_mem [DecidableEq α] {l : List (α × β)} {k : α}
    (h : k ∈ akeys l) (v : β) : akeys (aset k v l) = akeys l := by
  induction l with
  | nil => simp [akeys] at h
  | cons x rest ih =>
    by_cases hx : k = x.1
    · simp [aset, hx, akeys]
    · rw [akeys, List.map_cons] at h
      rcases List.mem_cons.mp h with h1 | hmem
      · exact absurd h1 hx
      · simp only [aset, if_neg hx, akeys, List.map_cons]
        rw [show List.map Prod.fst (aset k v rest) = akeys (aset k v rest) from rfl,
          ih hmem]
        rfl

theorem akeys_aset_of_not_mem [DecidableEq α] {l : List (α × β)} {k : α}
    (h : k ∉ akeys l) (v : β) : akeys (aset k v l) = akeys l ++ [k] := by
  induction l with
  | nil => simp [aset, akeys]
  | cons x rest ih =>
    rw [akeys, List.map_cons, List.mem_cons] at h
    push_neg at h
    simp only [aset, if_neg h.1, akeys, List.map_cons]
    rw [show List.map Prod.fst (aset k v rest) = akeys (aset k v rest) from rfl,
      ih h.2]
    rfl

theorem akeys_nodup_aset [DecidableEq α] {l : List (α × β)} {k : α}
    (hnd : (akeys l).Nodup) (v : β) : (akeys (aset k v l)).Nodup := by
  by_cases h : k ∈ akeys l
  · rw [akeys_aset_of_mem h]
    exact hnd
  · rw [akeys_aset_of_not_mem h]
    simp [List.nodup_append, hnd, h]

/-! ### C8: the Q-learning update -/

theorem lookup_seedQ_current (ql : ActionQLearner) (s a : String) :
    alookup ((alookup (seedQ ql s a) s).getD []) a =
      some ((lookupQ ql.q_table s a).getD 0) := by
  rw [lookupQ]
  simp only [seedQ]
  by_cases hs : alookup ql.q_table s = none
  · rw [if_pos hs, hs]
    have h1 : alookup (aset s ([] : List (String × ℚ)) ql.q_table) s = some [] :=
      alookup_aset_self s [] ql.q_table
    rw [h1]
    simp only [Option.getD_some, Option.getD_none]
    have h2 : alookup ([] : List (String × ℚ)) a = none := rfl
    rw [h2, if_pos rfl]
    have h3 : alookup (aset s (aset a (0:ℚ) []) (aset s ([] : List (String × ℚ)) ql.q_table)) s =
        some (aset a (0:ℚ) []) := alookup_aset_self _ _ _
    rw [h3]
    simp only [Option.getD_some]
    rw [show aset a (0:ℚ) [] = [(a, 0)] from rfl]
    simp [alookup]
  · obtain ⟨inner, hinner⟩ := Option.ne_none_iff_exists'.mp hs
    rw [if_neg hs, hinner]
    simp only [Option.getD_some]
    by_cases ha : alookup inner a = none
    · rw [if_pos ha]
      have h3 : alookup (aset s (aset a (0:ℚ) inner) ql.q_table) s =
          some (aset a (0:ℚ) inner) := alookup_aset_self _ _ _
      rw [h3]
      simp only [Option.getD_some]
      rw [alookup_aset_self, ha]
      rfl
    · obtain ⟨q, hq⟩ := Option.ne_none_iff_exists'.mp ha
      rw [if_neg ha]
      have h3 : alookup (aset s inner ql.q_table) s = some inner :=
        alookup_aset_self _ _ _
      rw [h3]
      simp only [Option.getD_some]
      rw [hq]
      rfl

theorem seedQ_other_row (ql : ActionQLearner) (s a ns : String) (hns : ns ≠ s) :
    alookup (seedQ ql s a) ns = alookup ql.q_table ns := by
  simp only [seedQ]
  by_cases hs : alookup ql.q_table s = none
  · rw [if_pos hs, alookup_aset_ne hns, alookup_aset_ne hns]
  · rw [if_neg hs, alookup_aset_ne hns]

/-- C8 amended: `update(state, action, reward, nextState)` stores
`Q(s,a) + alpha * (reward + gamma * maxNext - Q(s,a))` at `(s, a)`, where an
absent `(s, a)` entry is read as the implicit prior 0, and `maxNext` is the
maximum Q-value of the next state row in the table *after* the absent
`(state, action)` entry has been seeded with 0 (0 when that row is empty or
missing). When `nextState` differs from `state` the seeded row of
`nextState` is the stored row, so `maxNext` is the stored maximum exactly
as the spec says; the two differ only in the self-transition corner with
`(s, a)` absent. -/
theorem C8_q_update_amended (ql : ActionQLearner) (s a : String) (r : ℚ) (ns : String) :
    lookupQ (ql.update s a r ns).q_table s a =
      some ((lookupQ ql.q_table s a).getD 0 +
        ql.alpha * (r + ql.gamma *
          listMaxD (((alookup (seedQ ql s a) ns).getD []).map Prod.snd) -
          (lookupQ ql.q_table s a).getD 0)) ∧
    (ns ≠ s → alookup (seedQ ql s a) ns = alookup ql.q_table ns) := by
  constructor
  · simp only [ActionQLearner.update, lookupQ]
    rw [alookup_aset_self]
    simp only [Option.getD_some]
    rw [alookup_aset_self, lookup_seedQ_current]
    simp only [Option.getD_some, lookupQ]
  · intro hns
    exact seedQ_other_row ql s a ns hns

/-- The Q-learner state of the C8 counterexample: state "s" already has a
stored action "b" with negative value `-5`. -/
def c8QL : ActionQLearner := ⟨[("s", [("b", -5)])], 1/10, 9/10, 3/20, 0⟩

/-- C8 counterexample: in a self-transition (`nextState = state`) with the
updated action absent, the source seeds `Q(s, a) = 0` before taking the max
over the next state values, so `maxNext` is `max(-5, 0) = 0` rather than
the stored maximum `-5` the claim prescribes: the stored result is `0`,
not `0.1 * (0 + 0.9 * (-5)) = -0.45`. -/
theorem C8_q_update_counterexample :
    ¬ (∀ (ql : ActionQLearner) (s a : String) (r : ℚ) (ns : String),
        lookupQ (ql.update s a r ns).q_table s a =
          some ((lookupQ ql.q_table s a).getD 0 +
            ql.alpha * (r + ql.gamma *
              listMaxD (((alookup ql.q_table ns).getD []).map Prod.snd) -
              (lookupQ ql.q_table s a).getD 0))) := by
  intro h
  have hinst := h c8QL "s" "a" 0 "s"
  have hseed : alookup (seedQ c8QL "s" "a") "s" = some [("b", (-5 : ℚ)), ("a", 0)] := rfl
  have hlook : lookupQ c8QL.q_table "s" "a" = none := rfl
  have hrow : alookup c8QL.q_table "s" = some [("b", (-5 : ℚ))] := rfl
  have hmax0 : listMaxD (List.map Prod.snd [("b", (-5 : ℚ)), ("a", 0)]) = 0 := by
    show listMaxD [(-5 : ℚ), 0] = 0
    show List.foldl max (-5 : ℚ) [0] = 0
    show max (-5 : ℚ) 0 = 0
    exact max_eq_right (by norm_num)
  have hmax5 : listMaxD (List.map Prod.snd [("b", (-5 : ℚ))]) = -5 := rfl
  have hL : lookupQ (c8QL.update "s" "a" 0 "s").q_table "s" "a" = some 0 := by
    rw [(C8_q_update_amended c8QL "s" "a" 0 "s").1, hseed, hlook]
    simp only [Option.getD_some, Option.getD_none]
    rw [hmax0]
    norm_num
  rw [hL, hlook, hrow] at hinst
  simp only [Option.getD_some, Option.getD_none] at hinst
  rw [hmax5] at hinst
  simp only [Option.some.injEq] at hinst
  norm_num [c8QL] at hinst

/-! ### C7: strategy bandit convergence -/

/-- Fold a sequence of `(strategy, score)` updates over a strategy bandit. -/
def runStrategyUpdates (b : StrategyBandit) (updates : List (String × ℚ)) :
    StrategyBandit :=
  updates.foldl (fun acc u => acc.update u.1 u.2) b

/-- The update regime of the convergence claim: one fixed arm always
receives score 1.0, every other arm always receives 0.0. -/
def ConformingUpdates (s₀ : String) (updates : List (String × ℚ)) : Prop :=
  ∀ u ∈ updates, (u.1 = s₀ → u.2 = 1) ∧ (u.1 ≠ s₀ → u.2 = 0)

/-- Invariant of the regime: arm keys are distinct, every arm other than
the dominant one keeps `alpha = 1` and `beta ≥ 1`, and the dominant arm
keeps `beta = 1` and `alpha ≥ 1`. -/
def GoodArms (s₀ : String) (arms : List (String × ℚ × ℚ)) : Prop :=
  (akeys arms).Nodup ∧
  (∀ e ∈ arms, e.1 ≠ s₀ → e.2.1 = 1 ∧ 1 ≤ e.2.2) ∧
  (∀ e ∈ arms, e.1 = s₀ → e.2.2 = 1 ∧ 1 ≤ e.2.1)

/-- The dominant arm has been updated at least once: `alpha ≥ 2`, `beta = 1`. -/
def DominantIn (s₀ : String) (arms : List (String × ℚ × ℚ)) : Prop :=
  ∃ av : ℚ, (s₀, av, 1) ∈ arms ∧ 2 ≤ av

theorem update_seeded_lookup (b : StrategyBandit) (st : String) :
    alookup (if alookup b.arms st = none then aset st ((1:ℚ), (1:ℚ)) b.arms else b.arms) st =
      some ((alookup b.arms st).getD (1, 1)) := by
  by_cases h : alookup b.arms st = none
  · rw [if_pos h, h, alookup_aset_self]
    rfl
  · obtain ⟨v, hv⟩ := Option.ne_none_iff_exists'.mp h
    rw [if_neg h, hv]
    rfl

theorem update_arms_eq (b : StrategyBandit) (st : String) (sc : ℚ) :
    (b.update st sc).arms =
      aset st (((alookup b.arms st).getD (1, 1)).1 + sc,
               ((alookup b.arms st).getD (1, 1)).2 + (1 - sc))
        (if alookup b.arms st = none then aset st ((1:ℚ), (1:ℚ)) b.arms else b.arms) := by
  simp only [StrategyBandit.update, update_seeded_lookup]
  rfl

theorem update_arms_nodup (b : StrategyBandit) (st : String) (sc : ℚ)
    (hnd : (akeys b.arms).Nodup) : (akeys (b.update st sc).arms).Nodup := by
  rw [update_arms_eq]
  apply akeys_nodup_aset
  by_cases h : alookup b.arms st = none
  · rw [if_pos h]
    exact akeys_nodup_aset hnd _
  · rw [if_neg h]
    exact hnd

theorem update_mem_elim (b : StrategyBandit) (st : String) (sc : ℚ)
    (hnd : (akeys b.arms).Nodup) {e : String × ℚ × ℚ}
    (he : e ∈ (b.update st sc).arms) :
    (e = (st, ((alookup b.arms st).getD (1, 1)).1 + sc,
              ((alookup b.arms st).getD (1, 1)).2 + (1 - sc))) ∨
    (e ∈ b.arms ∧ e.1 ≠ st) := by
  rw [update_arms_eq] at he
  by_cases h : alookup b.arms st = none
  · rw [if_pos h] at he
    rcases (mem_aset_iff_of_nodup (akeys_nodup_aset hnd _) _ _).mp he with h1 | ⟨hmem, hne⟩
    · exact Or.inl h1
    · rcases (mem_aset_iff_of_nodup hnd _ _).mp hmem with h2 | ⟨hm2, _⟩
      · exact absurd (by rw [h2]) hne
      · exact Or.inr ⟨hm2, hne⟩
  · rw [if_neg h] at he
    rcases (mem_aset_iff_of_nodup hnd _ _).mp he with h1 | ⟨hmem, hne⟩
    · exact Or.inl h1
    · exact Or.inr ⟨hmem, hne⟩

theorem update_mem_new (b : StrategyBandit) (st : String) (sc : ℚ) :
    (st, ((alookup b.arms st).getD (1, 1)).1 + sc,
         ((alookup b.arms st).getD (1, 1)).2 + (1 - sc)) ∈ (b.update st sc).arms := by
  rw [update_arms_eq]
  exact mem_aset_self _ _ _

theorem update_mem_keep (b : StrategyBandit) (st : String) (sc : ℚ)
    {e : String × ℚ × ℚ} (he : e ∈ b.arms) (hne : e.1 ≠ st) :
    e ∈ (b.update st sc).arms := by
  rw [update_arms_eq]
  apply mem_aset_of_ne _ hne
  by_cases h : alookup b.arms st = none
  · rw [if_pos h]
    exact mem_aset_of_ne he hne _
  · rw [if_neg h]
    exact he

theorem goodArms_update (s₀ : String) (b : StrategyBandit) (st : String) (sc : ℚ)
    (hg : GoodArms s₀ b.arms)
    (hc : (st = s₀ → sc = 1) ∧ (st ≠ s₀ → sc = 0)) :
    GoodArms s₀ (b.update st sc).arms := by
  obtain ⟨hnd, hother, hdom⟩ := hg
  refine ⟨update_arms_nodup b st sc hnd, ?_, ?_⟩
  · intro e he hene
    rcases update_mem_elim b st sc hnd he with rfl | ⟨hmem, _⟩
    · -- the freshly written entry, key st ≠ s₀
      have hst : st ≠ s₀ := hene
      have hsc : sc = 0 := hc.2 hst
      cases hv : alookup b.arms st with
      | none =>
        simp only [hv, Option.getD_none]
        constructor
        · simp [hsc]
        · simp only [hsc]
          norm_num
      | some v =>
        have hvm : (st, v) ∈ b.arms := alookup_mem hv
        have hva := hother (st, v) hvm hst
        have h1 : v.1 = 1 := hva.1
        have h2 : (1 : ℚ) ≤ v.2 := hva.2
        simp only [hv, Option.getD_some]
        constructor
        · simp [h1, hsc]
        · simp only [hsc]
          norm_num
          linarith
    · exact hother e hmem hene
  · intro e he hes
    rcases update_mem_elim b st sc hnd he with rfl | ⟨hmem, _⟩
    · have hst : st = s₀ := hes
      have hsc : sc = 1 := hc.1 hst
      cases hv : alookup b.arms st with
      | none =>
        simp only [hv, Option.getD_none]
        constructor
        · simp [hsc]
        · simp only [hsc]
          norm_num
      | some v =>
        have hvm : (st, v) ∈ b.arms := alookup_mem hv
        have hva := hdom (st, v) hvm hst
        have h1 : v.2 = 1 := hva.1
        have h2 : (1 : ℚ) ≤ v.1 := hva.2
        simp only [hv, Option.getD_some]
        constructor
        · simp [h1, hsc]
        · simp only [hsc]
          norm_num
          linarith
    · exact hdom e hmem hes

theorem dominant_update (s₀ : String) (b : StrategyBandit) (st : String) (sc : ℚ)
    (hg : GoodArms s₀ b.arms)
    (hc : (st = s₀ → sc = 1) ∧ (st ≠ s₀ → sc = 0))
    (hd : DominantIn s₀ b.arms) : DominantIn s₀ (b.update st sc).arms := by
  obtain ⟨av, hmem, hav⟩ := hd
  by_cases hst : st = s₀
  · subst hst
    have hsc : sc = 1 := hc.1 rfl
    subst hsc
    have hlk : alookup b.arms st = some (av, 1) := mem_alookup_of_nodup hg.1 hmem
    have hnew := update_mem_new b st 1
    rw [hlk] at hnew
    simp only [Option.getD_some] at hnew
    have harith : (1 : ℚ) + (1 - 1) = 1 := by norm_num
    rw [harith] at hnew
    exact ⟨av + 1, hnew, by linarith⟩
  · exact ⟨av, update_mem_keep b st sc hmem (Ne.symm hst), hav⟩

theorem dominant_after_hit (s₀ : String) (b : StrategyBandit)
    (hg : GoodArms s₀ b.arms) : DominantIn s₀ (b.update s₀ 1).arms := by
  have hnew := update_mem_new b s₀ 1
  cases hv : alookup b.arms s₀ with
  | none =>
    rw [hv] at hnew
    simp only [Option.getD_none] at hnew
    refine ⟨2, ?_, le_refl 2⟩
    have h1 : ((1 : ℚ) + 1, (1 : ℚ) + (1 - 1)) = ((2 : ℚ), (1 : ℚ)) := by norm_num
    rw [h1] at hnew
    exact hnew
  | some v =>
    have hvm : (s₀, v) ∈ b.arms := alookup_mem hv
    have hva := hg.2.2 (s₀, v) hvm rfl
    rw [hv] at hnew
    simp only [Option.getD_some] at hnew
    refine ⟨v.1 + 1, ?_, by linarith [hva.2]⟩
    have h1 : v.2 + (1 - 1) = (1 : ℚ) := by rw [hva.1]; ring
    rw [h1] at hnew
    exact hnew

theorem run_goodArms (s₀ : String) (us : List (String × ℚ)) :
    ∀ b : StrategyBandit, GoodArms s₀ b.arms → ConformingUpdates s₀ us →
      GoodArms s₀ (runStrategyUpdates b us).arms := by
  induction us with
  | nil => intro b hg _; exact hg
  | cons u rest ih =>
    intro b hg hc
    exact ih (b.update u.1 u.2)
      (goodArms_update s₀ b u.1 u.2 hg (hc u (List.mem_cons_self u rest)))
      (fun x hx => hc x (List.mem_cons_of_mem u hx))

theorem run_dominant (s₀ : String) (us : List (String × ℚ)) :
    ∀ b : StrategyBandit, GoodArms s₀ b.arms → ConformingUpdates s₀ us →
      DominantIn s₀ b.arms → DominantIn s₀ (runStrategyUpdates b us).arms := by
  induction us with
  | nil => intro b _ _ hd; exact hd
  | cons u rest ih =>
    intro b hg hc hd
    exact ih (b.update u.1 u.2)
      (goodArms_update s₀ b u.1 u.2 hg (hc u (List.mem_cons_self u rest)))
      (fun x hx => hc x (List.mem_cons_of_mem u hx))
      (dominant_update s₀ b u.1 u.2 hg (hc u (List.mem_cons_self u rest)) hd)

theorem run_hit_dominant (s₀ : String) (us : List (String × ℚ)) :
    ∀ b : StrategyBandit, GoodArms s₀ b.arms → ConformingUpdates s₀ us →
      (∃ u ∈ us, u.1 = s₀) → DominantIn s₀ (runStrategyUpdates b us).arms := by
  induction us with
  | nil =>
    intro b _ _ hhit
    obtain ⟨u, hu, _⟩ := hhit
    exact absurd hu (List.not_mem_nil u)
  | cons u rest ih =>
    intro b hg hc hhit
    by_cases hu : u.1 = s₀
    · have hsc : u.2 = 1 := (hc u (List.mem_cons_self u rest)).1 hu
      have hup : DominantIn s₀ (b.update u.1 u.2).arms := by
        rw [hu, hsc]
        exact dominant_after_hit s₀ b hg
      exact run_dominant s₀ rest (b.update u.1 u.2)
        (goodArms_update s₀ b u.1 u.2 hg (hc u (List.mem_cons_self u rest)))
        (fun x hx => hc x (List.mem_cons_of_mem u hx)) hup
    · obtain ⟨w, hw, hws⟩ := hhit
      rcases List.mem_cons.mp hw with rfl | hwrest
      · exact absurd hws hu
      · exact ih (b.update u.1 u.2)
          (goodArms_update s₀ b u.1 u.2 hg (hc u (List.mem_cons_self u rest)))
          (fun x hx => hc x (List.mem_cons_of_mem u hx))
          ⟨w, hwrest, hws⟩

theorem foldl_bestStep_stay (l : List (String × ℚ × ℚ)) (acc : String × ℚ)
    (h : ∀ e ∈ l, ¬ acc.2 < evOf e) : l.foldl bestStep acc = acc := by
  induction l with
  | nil => rfl
  | cons x xs ih =>
    rw [List.foldl_cons, bestStep, if_neg (h x (List.mem_cons_self x xs))]
    exact ih (fun e he => h e (List.mem_cons_of_mem x he))

theorem foldl_bestStep_finds (l : List (String × ℚ × ℚ)) (e₀ : String × ℚ × ℚ) :
    ∀ acc : String × ℚ, e₀ ∈ l →
      (∀ e ∈ l, e ≠ e₀ → evOf e < evOf e₀) →
      acc.2 < evOf e₀ →
      l.foldl bestStep acc = (e₀.1, evOf e₀) := by
  induction l with
  | nil =>
    intro acc hmem _ _
    exact absurd hmem (List.not_mem_nil e₀)
  | cons x xs ih =>
    intro acc hmem hstrict hacc
    by_cases hx : x = e₀
    · subst hx
      rw [List.foldl_cons, bestStep, if_pos hacc]
      apply foldl_bestStep_stay
      intro e he
      by_cases hee : e = x
      · rw [hee]
        exact lt_irrefl _
      · exact not_lt_of_lt (hstrict e (List.mem_cons_of_mem x he) hee)
    · have hmem2 : e₀ ∈ xs := by
        rcases List.mem_cons.mp hmem with h1 | h1
        · exact absurd h1.symm hx
        · exact h1
      have hstrict2 : ∀ e ∈ xs, e ≠ e₀ → evOf e < evOf e₀ :=
        fun e he => hstrict e (List.mem_cons_of_mem x he)
      rw [List.foldl_cons, bestStep]
      by_cases hlt : acc.2 < evOf x
      · rw [if_pos hlt]
        exact ih (x.1, evOf x) hmem2 hstrict2
          (hstrict x (List.mem_cons_self x xs) hx)
      · rw [if_neg hlt]
        exact ih acc hmem2 hstrict2 hacc

theorem ev_dominant {a : ℚ} (ha : 2 ≤ a) : 2/3 ≤ a / (a + 1) := by
  rw [le_div_iff (by linarith : (0:ℚ) < a + 1)]
  linarith

theorem ev_other {b : ℚ} (hb : 1 ≤ b) : 1 / (1 + b) ≤ 1/2 := by
  rw [div_le_div_iff (by linarith : (0:ℚ) < 1 + b) (by norm_num : (0:ℚ) < 2)]
  linarith

theorem nodup_akeys_unique_val [DecidableEq α] {l : List (α × β)} {k : α}
    {v w : β} (hnd : (akeys l).Nodup) (hv : (k, v) ∈ l) (hw : (k, w) ∈ l) :
    v = w := by
  have h1 := mem_alookup_of_nodup hnd hv
  have h2 := mem_alookup_of_nodup hnd hw
  rw [h1] at h2
  exact (Option.some.injEq _ _).mp h2

/-- C7: starting from a fresh strategy bandit, after any sequence of at
least 30 updates in which the fixed arm `s₀` is updated at least once and
always with score 1.0 while every other arm is always updated with score
0.0, pure exploitation (`get_best`, the ε = 0 selection) returns `s₀`. -/
theorem C7_bandit_convergence (s₀ : String) (updates : List (String × ℚ))
    (hlen : 30 ≤ updates.length)
    (hconf : ConformingUpdates s₀ updates)
    (hhit : ∃ u ∈ updates, u.1 = s₀) :
    (runStrategyUpdates StrategyBandit.init updates).get_best = s₀ := by
  have hg0 : GoodArms s₀ StrategyBandit.init.arms := by
    refine ⟨by decide, ?_, ?_⟩
    · intro e he _
      fin_cases he <;> exact ⟨rfl, le_refl 1⟩
    · intro e he _
      fin_cases he <;> exact ⟨rfl, le_refl 1⟩
  have hgood := run_goodArms s₀ updates StrategyBandit.init hg0 hconf
  have hdom := run_hit_dominant s₀ updates StrategyBandit.init hg0 hconf hhit
  obtain ⟨av, hmem, hav⟩ := hdom
  have hev0 : (2:ℚ)/3 ≤ evOf (s₀, av, 1) := by
    rw [evOf]
    exact ev_dominant hav
  have hstrict : ∀ e ∈ (runStrategyUpdates StrategyBandit.init updates).arms,
      e ≠ (s₀, av, 1) → evOf e < evOf (s₀, av, 1) := by
    intro e he hne
    by_cases hek : e.1 = s₀
    · exfalso
      obtain ⟨k, p⟩ := e
      have hks : k = s₀ := hek
      subst hks
      have hp : p = (av, 1) := nodup_akeys_unique_val hgood.1 he hmem
      exact hne (by rw [hp])
    · have hoth := hgood.2.1 e he hek
      have : evOf e ≤ 1/2 := by
        rw [evOf, hoth.1]
        exact ev_other hoth.2
      calc evOf e ≤ 1/2 := this
        _ < 2/3 := by norm_num
        _ ≤ evOf (s₀, av, 1) := hev0
  rw [StrategyBandit.get_best,
    foldl_bestStep_finds _ (s₀, av, 1) _ hmem hstrict
      (show (-1 : ℚ) < evOf (s₀, av, 1) from by linarith)]

/-- Witness for C7: 15 score-1.0 updates to "socratic" followed by 15
score-0.0 updates to "analogy". -/
theorem C7_bandit_convergence_witness :
    (runStrategyUpdates StrategyBandit.init
      (List.replicate 15 ("socratic", (1:ℚ)) ++ List.replicate 15 ("analogy", 0))).get_best
      = "socratic" :=
  C7_bandit_convergence "socratic"
    (List.replicate 15 ("socratic", (1:ℚ)) ++ List.replicate 15 ("analogy", 0))
    (by simp)
    (by
      intro u hu
      rcases List.mem_append.mp hu with h | h
      · have hu1 := List.eq_of_mem_replicate h
        subst hu1
        exact ⟨fun _ => rfl, fun hne => absurd rfl hne⟩
      · have hu1 := List.eq_of_mem_replicate h
        subst hu1
        exact ⟨fun hcontra => absurd hcontra (by decide), fun _ => rfl⟩)
    ⟨("socratic", 1),
      List.mem_append_left _ (List.mem_replicate.mpr ⟨by norm_num, rfl⟩), rfl⟩

/-! ### Serialization (C5): string codec for table keys

`DifficultyBandit.to_dict` and friends stringify inner table keys with
Python `str(...)` and parse them back with `int(...)` / `float(...)`.
Integers are rendered in decimal with an optional leading minus. Python
floats are dyadic rationals, so `str(float)` always prints a terminating
decimal that `float(...)` maps back to the same value; we model the pair
by an exact decimal rendering (fraction digits obtained from the smallest
power of ten clearing the denominator) with a `num/den` fallback for
rationals with no terminating decimal, which cannot arise from a float. -/

/-- The character of a decimal digit (`'0'` is code point 48). -/
def digitCharOf (d : ℕ) : Char := Char.ofNat (48 + d)

/-- The digit value of a character. -/
def charDigitVal (c : Char) : ℕ := c.toNat - 48

/-- Decimal rendering of a natural number, as Python `str` writes it. -/
def natStr (n : ℕ) : String :=
  if n = 0 then "0" else String.mk (((Nat.digits 10 n).reverse).map digitCharOf)

/-- Value of a list of decimal digit characters (most significant first). -/
def strNatChars (l : List Char) : ℕ :=
  Nat.ofDigits 10 ((l.map charDigitVal).reverse)

/-- Decimal parsing of a natural number. -/
def strNat (s : String) : ℕ := strNatChars s.data

theorem charDigitVal_digitCharOf {d : ℕ} (hd : d < 10) :
    charDigitVal (digitCharOf d) = d := by
  interval_cases d <;> rfl

theorem digitCharOf_not_special {d : ℕ} (hd : d < 10) :
    digitCharOf d ≠ '-' ∧ digitCharOf d ≠ '.' ∧ digitCharOf d ≠ '/' := by
  interval_cases d <;> exact ⟨by decide, by decide, by decide⟩

theorem natStr_chars_not_special (n : ℕ) :
    ∀ c ∈ (natStr n).data, c ≠ '-' ∧ c ≠ '.' ∧ c ≠ '/' := by
  intro c hc
  rw [natStr] at hc
  by_cases h : n = 0
  · rw [if_pos h] at hc
    rcases List.mem_singleton.mp hc with rfl
    exact ⟨by decide, by decide, by decide⟩
  · rw [if_neg h] at hc
    obtain ⟨d, hd, rfl⟩ := List.mem_map.mp hc
    exact digitCharOf_not_special
      (Nat.digits_lt_base (by norm_num) (List.mem_reverse.mp hd))

theorem natStr_data_ne_nil (n : ℕ) : (natStr n).data ≠ [] := by
  rw [natStr]
  by_cases h : n = 0
  · rw [if_pos h]
    simp
  · rw [if_neg h]
    simp only []
    intro hcon
    have := List.map_eq_nil.mp hcon
    have := List.reverse_eq_nil_iff.mp this
    exact h (Nat.digits_eq_nil_iff_eq_zero.mp this)

theorem strNat_natStr (n : ℕ) : strNat (natStr n) = n := by
  rw [natStr, strNat]
  by_cases h : n = 0
  · rw [if_pos h, h]
    rfl
  · rw [if_neg h]
    show strNatChars (((Nat.digits 10 n).reverse).map digitCharOf) = n
    rw [strNatChars, List.map_map]
    have hmap : ((Nat.digits 10 n).reverse).map (charDigitVal ∘ digitCharOf) =
        (Nat.digits 10 n).reverse := by
      apply List.map_congr_left ?_ |>.trans (List.map_id _)
      intro d hd
      exact charDigitVal_digitCharOf
        (Nat.digits_lt_base (by norm_num) (List.mem_reverse.mp hd))
    rw [hmap, List.reverse_reverse, Nat.ofDigits_digits]

/-- Decimal rendering of an integer (Python `str` on `int`). -/
def intStr (i : ℤ) : String :=
  if i < 0 then "-" ++ natStr i.natAbs else natStr i.toNat

/-- Decimal parsing of an integer (Python `int(...)`). -/
def strInt (s : String) : ℤ :=
  if s.data.head? = some '-' then -(strNatChars s.data.tail : ℤ)
  else (strNatChars s.data : ℤ)

theorem intStr_chars_not_dot_slash (i : ℤ) :
    ∀ c ∈ (intStr i).data, c ≠ '.' ∧ c ≠ '/' := by
  intro c hc
  rw [intStr] at hc
  by_cases h : i < 0
  · rw [if_pos h] at hc
    rw [show ("-" ++ natStr i.natAbs).data = '-' :: (natStr i.natAbs).data from rfl] at hc
    rcases List.mem_cons.mp hc with rfl | hc2
    · exact ⟨by decide, by decide⟩
    · exact ⟨(natStr_chars_not_special _ c hc2).2.1, (natStr_chars_not_special _ c hc2).2.2⟩
  · rw [if_neg h] at hc
    exact ⟨(natStr_chars_not_special _ c hc).2.1, (natStr_chars_not_special _ c hc).2.2⟩

theorem natStr_head_not_minus (n : ℕ) : (natStr n).data.head? ≠ some '-' := by
  cases hd : (natStr n).data with
  | nil => simp
  | cons c rest =>
    simp only [List.head?, ne_eq, Option.some.injEq]
    intro hcon
    have hm : c ∈ (natStr n).data := by
      rw [hd]
      exact List.mem_cons_self _ _
    exact (natStr_chars_not_special n c hm).1 hcon

theorem strInt_intStr (i : ℤ) : strInt (intStr i) = i := by
  rw [intStr]
  by_cases h : i < 0
  · rw [if_pos h, strInt]
    rw [show ("-" ++ natStr i.natAbs).data = '-' :: (natStr i.natAbs).data from rfl]
    rw [if_pos (show ('-' :: (natStr i.natAbs).data).head? = some '-' from rfl)]
    rw [show ('-' :: (natStr i.natAbs).data).tail = (natStr i.natAbs).data from rfl]
    rw [show strNatChars (natStr i.natAbs).data = strNat (natStr i.natAbs) from rfl,
      strNat_natStr]
    omega
  · rw [if_neg h, strInt, if_neg (natStr_head_not_minus _)]
    rw [show strNatChars (natStr i.toNat).data = strNat (natStr i.toNat) from rfl,
      strNat_natStr]
    omega

/-- The smallest exponent `k ≤ den` with `den ∣ 10 ^ k`, when one exists
(it always does for a denominator of a Python float, which is a power of
two times a power of five). -/
def ratDenExp (d : ℕ) : Option ℕ :=
  (List.range (d + 1)).find? (fun k => decide (d ∣ 10 ^ k))

/-- Left-pad a digit string with zeros to the fraction width. -/
def padZeros (k : ℕ) (l : List Char) : List Char :=
  List.replicate (k - l.length) '0' ++ l

/-- Python `str` on a float value: sign, integer part, point, fraction
digits (exact, since float values are dyadic); `num/den` fallback for a
rational with no terminating decimal (unreachable from float inputs). -/
def floatStr (q : ℚ) : String :=
  match ratDenExp q.den with
  | some k =>
      let m : ℕ := q.num.natAbs * (10 ^ k / q.den)
      (if q.num < 0 then "-" else "") ++ natStr (m / 10 ^ k) ++ "." ++
        String.mk (padZeros k (natStr (m % 10 ^ k)).data)
  | none => intStr q.num ++ "/" ++ natStr q.den

/-- Split a character list at the first occurrence of `c` (the whole list
and an empty second part when `c` does not occur). -/
def splitAtChar (c : Char) : List Char → List Char × List Char
  | [] => ([], [])
  | x :: xs =>
      if x = c then ([], xs)
      else
        let p := splitAtChar c xs
        (x :: p.1, p.2)

/-- Python `float(...)` on the strings produced by `floatStr`. -/
def floatParse (s : String) : ℚ :=
  if '/' ∈ s.data then
    let p := splitAtChar '/' s.data
    (strInt (String.mk p.1) : ℚ) / (strNatChars p.2 : ℚ)
  else
    let sgn : ℚ := if s.data.head? = some '-' then -1 else 1
    let body := if s.data.head? = some '-' then s.data.tail else s.data
    let p := splitAtChar '.' body
    sgn * ((strNatChars p.1 : ℚ) + (strNatChars p.2 : ℚ) / 10 ^ p.2.length)

theorem splitAtChar_append {c : Char} {l₁ l₂ : List Char} (h : c ∉ l₁) :
    splitAtChar c (l₁ ++ c :: l₂) = (l₁, l₂) := by
  induction l₁ with
  | nil =>
    simp [splitAtChar]
  | cons x xs ih =>
    have hx : x ≠ c := fun hxc => h (hxc ▸ List.mem_cons_self x xs)
    have ih2 := ih (fun hc => h (List.mem_cons_of_mem x hc))
    simp only [List.cons_append, splitAtChar, if_neg hx, List.append_eq, ih2]

theorem ofDigits_replicate_zero (b z : ℕ) :
    Nat.ofDigits b (List.replicate z 0) = 0 := by
  induction z with
  | zero => rfl
  | succ n ih =>
    rw [List.replicate_succ, Nat.ofDigits_cons, ih]
    ring

theorem strNatChars_padZeros (k : ℕ) (l : List Char) :
    strNatChars (padZeros k l) = strNatChars l := by
  rw [strNatChars, padZeros, List.map_append, List.map_replicate,
    show charDigitVal '0' = 0 from rfl, List.reverse_append,
    Nat.ofDigits_append, List.reverse_replicate, ofDigits_replicate_zero,
    strNatChars]
  ring

theorem natStr_length_le {n k : ℕ} (h : n < 10 ^ k) (hn : n ≠ 0) :
    (natStr n).data.length ≤ k := by
  rw [natStr, if_neg hn]
  rw [show (String.mk (((Nat.digits 10 n).reverse).map digitCharOf)).data =
    ((Nat.digits 10 n).reverse).map digitCharOf from rfl]
  rw [List.length_map, List.length_reverse]
  by_contra hgt
  push_neg at hgt
  have h2 : 10 ^ (Nat.digits 10 n).length ≤ 10 * n :=
    Nat.base_pow_length_digits_le 10 n (by norm_num) hn
  have h3 : 10 ^ (k + 1) ≤ 10 ^ (Nat.digits 10 n).length :=
    Nat.pow_le_pow_right (by norm_num) hgt
  have h4 : 10 * n < 10 * 10 ^ k := by omega
  rw [← pow_succ'] at h4
  omega

theorem padZeros_length_eq {k : ℕ} {l : List Char} (h : l.length ≤ k) :
    (padZeros k l).length = k := by
  rw [padZeros, List.length_append, List.length_replicate]
  omega

theorem padZeros_mem {k : ℕ} {l : List Char} {c : Char}
    (h : c ∈ padZeros k l) : c = '0' ∨ c ∈ l := by
  rw [padZeros] at h
  rcases List.mem_append.mp h with h1 | h1
  · exact Or.inl (List.eq_of_mem_replicate h1)
  · exact Or.inr h1

theorem frac_value (m k : ℕ) :
    ((strNatChars (padZeros k (natStr (m % 10 ^ k)).data) : ℚ) /
      10 ^ (padZeros k (natStr (m % 10 ^ k)).data).length) =
      ((m % 10 ^ k : ℕ) : ℚ) / 10 ^ k := by
  rw [strNatChars_padZeros,
    show strNatChars (natStr (m % 10 ^ k)).data = strNat (natStr (m % 10 ^ k)) from rfl,
    strNat_natStr]
  by_cases hz : m % 10 ^ k = 0
  · rw [hz]
    simp
  · have hlt : m % 10 ^ k < 10 ^ k := Nat.mod_lt _ (by positivity)
    rw [padZeros_length_eq (natStr_length_le hlt hz)]

theorem stringMk_data (s : String) : String.mk s.data = s := by
  cases s
  rfl

theorem decimal_value (m k : ℕ) :
    ((strNatChars (natStr (m / 10 ^ k)).data : ℚ) +
      (strNatChars (padZeros k (natStr (m % 10 ^ k)).data) : ℚ) /
        10 ^ (padZeros k (natStr (m % 10 ^ k)).data).length) = (m : ℚ) / 10 ^ k := by
  rw [frac_value,
    show strNatChars (natStr (m / 10 ^ k)).data = strNat (natStr (m / 10 ^ k)) from rfl,
    strNat_natStr]
  have hd0 : ((10 : ℚ) ^ k) ≠ 0 := by positivity
  field_simp
  exact_mod_cast Nat.div_add_mod' m (10 ^ k)

theorem decimal_chars_no_slash (m k : ℕ) :
    ∀ c ∈ ((natStr (m / 10 ^ k)).data ++ '.' :: padZeros k (natStr (m % 10 ^ k)).data),
      c ≠ '/' := by
  intro c hc
  rcases List.mem_append.mp hc with h1 | h1
  · exact (natStr_chars_not_special _ c h1).2.2
  · rcases List.mem_cons.mp h1 with rfl | h2
    · decide
    · rcases padZeros_mem h2 with rfl | h3
      · decide
      · exact (natStr_chars_not_special _ c h3).2.2

theorem floatParse_floatStr (q : ℚ) : floatParse (floatStr q) = q := by
  cases hk : ratDenExp q.den with
  | none =>
    have hfs : floatStr q = intStr q.num ++ "/" ++ natStr q.den := by
      unfold floatStr
      rw [hk]
    rw [hfs]
    have hdata : (intStr q.num ++ "/" ++ natStr q.den).data =
        (intStr q.num).data ++ '/' :: (natStr q.den).data := by
      rw [String.data_append, String.data_append, List.append_assoc]
      rfl
    simp only [floatParse, hdata]
    have hmem : '/' ∈ (intStr q.num).data ++ '/' :: (natStr q.den).data :=
      List.mem_append_right _ (List.mem_cons_self _ _)
    rw [if_pos hmem]
    have hno : '/' ∉ (intStr q.num).data :=
      fun hc => (intStr_chars_not_dot_slash q.num _ hc).2 rfl
    rw [splitAtChar_append hno, stringMk_data, strInt_intStr,
      show strNatChars (natStr q.den).data = strNat (natStr q.den) from rfl,
      strNat_natStr]
    exact Rat.num_div_den q
  | some k =>
    have hk2 : (List.range (q.den + 1)).find? (fun j => decide (q.den ∣ 10 ^ j)) = some k := hk
    have hfind := List.find?_some hk2
    have hdvd : q.den ∣ 10 ^ k := of_decide_eq_true hfind
    have hden0 : ((q.den : ℚ)) ≠ 0 := by
      have := q.den_nz
      exact_mod_cast this
    have hfs : floatStr q =
        (if q.num < 0 then "-" else "") ++
          natStr ((q.num.natAbs * (10 ^ k / q.den)) / 10 ^ k) ++ "." ++
          String.mk (padZeros k (natStr ((q.num.natAbs * (10 ^ k / q.den)) % 10 ^ k)).data) := by
      unfold floatStr
      rw [hk]
    have hmul : (q.num.natAbs * (10 ^ k / q.den)) * q.den = q.num.natAbs * 10 ^ k := by
      rw [mul_assoc, Nat.div_mul_cancel hdvd]
    have hmval : ((q.num.natAbs * (10 ^ k / q.den) : ℕ) : ℚ) * (q.den : ℚ) =
        ((q.num.natAbs : ℕ) : ℚ) * 10 ^ k := by
      exact_mod_cast hmul
    have hnodotA : '.' ∉ (natStr ((q.num.natAbs * (10 ^ k / q.den)) / 10 ^ k)).data :=
      fun hc => (natStr_chars_not_special _ _ hc).2.1 rfl
    rw [hfs]
    by_cases hneg : q.num < 0
    · rw [if_pos hneg]
      have hdata : (("-" ++
          natStr ((q.num.natAbs * (10 ^ k / q.den)) / 10 ^ k) ++ "." ++
          String.mk (padZeros k (natStr ((q.num.natAbs * (10 ^ k / q.den)) % 10 ^ k)).data)).data) =
          '-' :: ((natStr ((q.num.natAbs * (10 ^ k / q.den)) / 10 ^ k)).data ++
            '.' :: padZeros k (natStr ((q.num.natAbs * (10 ^ k / q.den)) % 10 ^ k)).data) := by
        rw [String.data_append, String.data_append, String.data_append,
          List.append_assoc, List.append_assoc]
        rfl
      simp only [floatParse, hdata]
      have hnosl : '/' ∉ ('-' :: ((natStr ((q.num.natAbs * (10 ^ k / q.den)) / 10 ^ k)).data ++
          '.' :: padZeros k (natStr ((q.num.natAbs * (10 ^ k / q.den)) % 10 ^ k)).data)) := by
        intro hc
        rcases List.mem_cons.mp hc with h1 | h1
        · exact absurd h1.symm (by decide)
        · exact decimal_chars_no_slash _ _ _ h1 rfl
      rw [if_neg hnosl]
      simp only [List.head?_cons, List.tail_cons, if_true,
        splitAtChar_append hnodotA, decimal_value]
      have hnegQ : ((q.num : ℚ)) < 0 := by exact_mod_cast hneg
      have key : ((q.num.natAbs * (10 ^ k / q.den) : ℕ) : ℚ) =
          -(q.num : ℚ) * 10 ^ k / q.den := by
        rw [eq_div_iff hden0, hmval, Int.cast_natAbs, Int.cast_abs, abs_of_neg hnegQ]
      rw [key]
      have h10 : ((10 : ℚ) ^ k) ≠ 0 := by positivity
      have hfinal : (-1 : ℚ) * ((-(q.num : ℚ) * 10 ^ k / q.den) / 10 ^ k) =
          (q.num : ℚ) / q.den := by
        field_simp
        ring
      rw [hfinal, Rat.num_div_den]
    · rw [if_neg hneg]
      obtain ⟨a, as, hAcons⟩ :=
        List.exists_cons_of_ne_nil
          (natStr_data_ne_nil ((q.num.natAbs * (10 ^ k / q.den)) / 10 ^ k))
      have hdata : ((("" : String) ++
          natStr ((q.num.natAbs * (10 ^ k / q.den)) / 10 ^ k) ++ "." ++
          String.mk (padZeros k (natStr ((q.num.natAbs * (10 ^ k / q.den)) % 10 ^ k)).data)).data) =
          ((natStr ((q.num.natAbs * (10 ^ k / q.den)) / 10 ^ k)).data ++
            '.' :: padZeros k (natStr ((q.num.natAbs * (10 ^ k / q.den)) % 10 ^ k)).data) := by
        rw [String.data_append, String.data_append, String.data_append,
          List.append_assoc, List.append_assoc]
        rfl
      simp only [floatParse, hdata]
      have hnosl : '/' ∉ ((natStr ((q.num.natAbs * (10 ^ k / q.den)) / 10 ^ k)).data ++
          '.' :: padZeros k (natStr ((q.num.natAbs * (10 ^ k / q.den)) % 10 ^ k)).data) :=
        fun hc => decimal_chars_no_slash _ _ _ hc rfl
      rw [if_neg hnosl]
      have hane : a ≠ '-' := by
        have ham : a ∈ (natStr ((q.num.natAbs * (10 ^ k / q.den)) / 10 ^ k)).data := by
          rw [hAcons]
          exact List.mem_cons_self _ _
        exact (natStr_chars_not_special _ a ham).1
      have hhd : ((natStr ((q.num.natAbs * (10 ^ k / q.den)) / 10 ^ k)).data ++
          '.' :: padZeros k (natStr ((q.num.natAbs * (10 ^ k / q.den)) % 10 ^ k)).data).head? =
          some a := by
        rw [hAcons, List.cons_append, List.head?_cons]
      have hcond : ¬ (((natStr ((q.num.natAbs * (10 ^ k / q.den)) / 10 ^ k)).data ++
          '.' :: padZeros k (natStr ((q.num.natAbs * (10 ^ k / q.den)) % 10 ^ k)).data).head? =
          some '-') := by
        rw [hhd]
        intro hcon
        exact hane (Option.some.injEq _ _ ▸ hcon)
      simp only [if_neg hcond, splitAtChar_append hnodotA, decimal_value]
      have hposQ : (0 : ℚ) ≤ (q.num : ℚ) := by
        push_neg at hneg
        exact_mod_cast hneg
      have key : ((q.num.natAbs * (10 ^ k / q.den) : ℕ) : ℚ) =
          (q.num : ℚ) * 10 ^ k / q.den := by
        rw [eq_div_iff hden0, hmval, Int.cast_natAbs, Int.cast_abs, abs_of_nonneg hposQ]
      rw [key]
      have h10 : ((10 : ℚ) ^ k) ≠ 0 := by positivity
      have hfinal : (1 : ℚ) * (((q.num : ℚ) * 10 ^ k / q.den) / 10 ^ k) =
          (q.num : ℚ) / q.den := by
        field_simp
        ring
      rw [hfinal, Rat.num_div_den]

/-! ### Serialization (C5): dict building and table encode/decode -/

theorem foldl_aset_cons_ne [DecidableEq κ] (l : List (κ × β)) (k : κ) (v : β)
    (init : List (κ × β)) (h : ∀ e ∈ l, e.1 ≠ k) :
    l.foldl (fun acc e => aset e.1 e.2 acc) ((k, v) :: init) =
      (k, v) :: l.foldl (fun acc e => aset e.1 e.2 acc) init := by
  induction l generalizing init with
  | nil => rfl
  | cons x xs ih =>
    rw [List.foldl_cons, List.foldl_cons]
    rw [show aset x.1 x.2 ((k, v) :: init) = (k, v) :: aset x.1 x.2 init from by
      simp only [aset]
      rw [if_neg (h x (List.mem_cons_self x xs))]]
    exact ih _ (fun e he => h e (List.mem_cons_of_mem x he))

theorem foldl_aset_extend [DecidableEq κ] (l : List (κ × β)) :
    ∀ init : List (κ × β), (akeys l).Nodup →
      akeys init = (akeys l).take init.length →
      l.foldl (fun acc e => aset e.1 e.2 acc) init = l := by
  induction l with
  | nil =>
    intro init _ hpre
    have hinit : init = [] := by
      cases init with
      | nil => rfl
      | cons e r =>
        rw [show akeys ([] : List (κ × β)) = [] from rfl, List.take_nil] at hpre
        exact absurd hpre (by simp [akeys])
    rw [hinit]
    rfl
  | cons x xs ih =>
    intro init hnd hpre
    obtain ⟨xk, xv⟩ := x
    rw [akeys, List.map_cons, List.nodup_cons] at hnd
    have hne : ∀ e ∈ xs, e.1 ≠ xk := by
      intro e he hek
      apply hnd.1
      rw [← hek]
      exact List.mem_map.mpr ⟨e, he, rfl⟩
    cases init with
    | nil =>
      rw [List.foldl_cons,
        show aset (xk, xv).1 (xk, xv).2 ([] : List (κ × β)) = [(xk, xv)] from rfl,
        foldl_aset_cons_ne xs xk xv [] hne,
        ih [] hnd.2 (by simp [akeys])]
    | cons i it =>
      have hpre2 : i.1 :: akeys it = xk :: (akeys xs).take it.length := by
        rw [show akeys (i :: it) = i.1 :: akeys it from rfl] at hpre
        rw [hpre]
        rfl
      have hik : i.1 = xk := (List.cons.injEq _ _ _ _).mp hpre2 |>.1
      have hit : akeys it = (akeys xs).take it.length :=
        (List.cons.injEq _ _ _ _).mp hpre2 |>.2
      rw [List.foldl_cons,
        show aset (xk, xv).1 (xk, xv).2 (i :: it) = (xk, xv) :: it from by
          simp only [aset]
          rw [if_pos hik.symm],
        foldl_aset_cons_ne xs xk xv it hne,
        ih it hnd.2 hit]

/-- Build a dict by inserting entries left to right into an empty dict
(a Python dict comprehension / construction loop). -/
def dictOf [DecidableEq κ] (l : List (κ × β)) : List (κ × β) :=
  l.foldl (fun acc e => aset e.1 e.2 acc) []

theorem dictOf_eq_self [DecidableEq κ] {l : List (κ × β)}
    (h : (akeys l).Nodup) : dictOf l = l :=
  foldl_aset_extend l [] h (by simp [akeys])

/-- A well-formed dict model: distinct keys (true of every association
list arising from a Python dict). -/
def WFTable [DecidableEq κ] (t : RewardTable κ) : Prop :=
  (akeys t).Nodup ∧ ∀ e ∈ t, (akeys e.2).Nodup

/-- Inner-key encoding of an integer-keyed reward row (`{str(d): v ...}`). -/
def encodeRowZ (row : RewardRow ℤ) : List (String × ℚ × ℕ) :=
  row.map (fun e => (intStr e.1, e.2))

/-- Inner-key decoding (`{int(d): v ...}`). -/
def decodeRowZ (row : List (String × ℚ × ℕ)) : RewardRow ℤ :=
  dictOf (row.map (fun e => (strInt e.1, e.2)))

/-- Inner-key encoding of a float-keyed reward row (`{str(t): v ...}`). -/
def encodeRowQ (row : RewardRow ℚ) : List (String × ℚ × ℕ) :=
  row.map (fun e => (floatStr e.1, e.2))

/-- Inner-key decoding (`{float(t): v ...}`). -/
def decodeRowQ (row : List (String × ℚ × ℕ)) : RewardRow ℚ :=
  dictOf (row.map (fun e => (floatParse e.1, e.2)))

/-- Outer encoding of a context table (a dict comprehension over a dict
with distinct keys, hence a plain map). -/
def encodeTableZ (t : RewardTable ℤ) : List (String × List (String × ℚ × ℕ)) :=
  t.map (fun e => (e.1, encodeRowZ e.2))

def decodeTableZ (t : List (String × List (String × ℚ × ℕ))) : RewardTable ℤ :=
  dictOf (t.map (fun e => (e.1, decodeRowZ e.2)))

def encodeTableQ (t : RewardTable ℚ) : List (String × List (String × ℚ × ℕ)) :=
  t.map (fun e => (e.1, encodeRowQ e.2))

def decodeTableQ (t : List (String × List (String × ℚ × ℕ))) : RewardTable ℚ :=
  dictOf (t.map (fun e => (e.1, decodeRowQ e.2)))

theorem decodeRowZ_encodeRowZ (row : RewardRow ℤ) (h : (akeys row).Nodup) :
    decodeRowZ (encodeRowZ row) = row := by
  rw [decodeRowZ, encodeRowZ, List.map_map]
  have hmap : row.map ((fun e : String × ℚ × ℕ => (strInt e.1, e.2)) ∘
      (fun e : ℤ × ℚ × ℕ => (intStr e.1, e.2))) = row := by
    refine (List.map_congr_left ?_).trans (List.map_id _)
    intro e _
    show (strInt (intStr e.1), e.2) = e
    rw [strInt_intStr]
  rw [hmap]
  exact dictOf_eq_self h

theorem decodeRowQ_encodeRowQ (row : RewardRow ℚ) (h : (akeys row).Nodup) :
    decodeRowQ (encodeRowQ row) = row := by
  rw [decodeRowQ, encodeRowQ, List.map_map]
  have hmap : row.map ((fun e : String × ℚ × ℕ => (floatParse e.1, e.2)) ∘
      (fun e : ℚ × ℚ × ℕ => (floatStr e.1, e.2))) = row := by
    refine (List.map_congr_left ?_).trans (List.map_id _)
    intro e _
    show (floatParse (floatStr e.1), e.2) = e
    rw [floatParse_floatStr]
  rw [hmap]
  exact dictOf_eq_self h

theorem decodeTableZ_encodeTableZ (t : RewardTable ℤ) (h : WFTable t) :
    decodeTableZ (encodeTableZ t) = t := by
  rw [decodeTableZ, encodeTableZ, List.map_map]
  have hmap : t.map ((fun e : String × List (String × ℚ × ℕ) => (e.1, decodeRowZ e.2)) ∘
      (fun e : String × RewardRow ℤ => (e.1, encodeRowZ e.2))) = t := by
    refine (List.map_congr_left ?_).trans (List.map_id _)
    intro e he
    show (e.1, decodeRowZ (encodeRowZ e.2)) = e
    rw [decodeRowZ_encodeRowZ e.2 (h.2 e he)]
  rw [hmap]
  exact dictOf_eq_self h.1

theorem decodeTableQ_encodeTableQ (t : RewardTable ℚ) (h : WFTable t) :
    decodeTableQ (encodeTableQ t) = t := by
  rw [decodeTableQ, encodeTableQ, List.map_map]
  have hmap : t.map ((fun e : String × List (String × ℚ × ℕ) => (e.1, decodeRowQ e.2)) ∘
      (fun e : String × RewardRow ℚ => (e.1, encodeRowQ e.2))) = t := by
    refine (List.map_congr_left ?_).trans (List.map_id _)
    intro e he
    show (e.1, decodeRowQ (encodeRowQ e.2)) = e
    rw [decodeRowQ_encodeRowQ e.2 (h.2 e he)]
  rw [hmap]
  exact dictOf_eq_self h.1

/-! ### Serialization (C5): serialized forms and `to_dict` / `from_dict` -/

/-- `StrategyBandit.to_dict` output: `{"arms": {name: [a, b]}}`. -/
structure StrategyBanditSer where
  arms : List (String × ℚ × ℚ)
deriving DecidableEq

/-- `DifficultyBandit.to_dict` output: three stringified-key tables plus
the counter. -/
structure DifficultyBanditSer where
  difficulty_table : List (String × List (String × ℚ × ℕ))
  threshold_table : List (String × List (String × ℚ × ℕ))
  retest_table : List (String × List (String × ℚ × ℕ))
  total_updates : ℕ
deriving DecidableEq

/-- `ActionQLearner.to_dict` output (keys of the Q-table are already
strings and pass through unchanged). -/
structure ActionQLearnerSer where
  q_table : List (String × List (String × ℚ))
  total_updates : ℕ
  alpha : ℚ
  gamma : ℚ
  epsilon : ℚ
deriving DecidableEq

/-- `EngagementBandit.to_dict` output. -/
structure EngagementBanditSer where
  profile_table : List (String × List (String × ℚ × ℕ))
  total_updates : ℕ
deriving DecidableEq

/-- `SchedulerBandit.to_dict` output. -/
structure SchedulerBanditSer where
  profile_table : List (String × List (String × ℚ × ℕ))
  total_updates : ℕ
deriving DecidableEq

def StrategyBandit.to_dict (b : StrategyBandit) : StrategyBanditSer := ⟨b.arms⟩

/-- `StrategyBandit.from_dict`: start from a fresh bandit (all five default
arms at `[1, 1]`) and write each stored arm over it in stored order. -/
def StrategyBandit.from_dict (d : StrategyBanditSer) : StrategyBandit :=
  ⟨d.arms.foldl (fun acc e => aset e.1 e.2 acc) StrategyBandit.init.arms⟩

def DifficultyBandit.to_dict (b : DifficultyBandit) : DifficultyBanditSer :=
  ⟨encodeTableZ b.difficulty_table, encodeTableQ b.threshold_table,
   encodeTableQ b.retest_table, b.total_updates⟩

def DifficultyBandit.from_dict (d : DifficultyBanditSer) : DifficultyBandit :=
  ⟨decodeTableZ d.difficulty_table, decodeTableQ d.threshold_table,
   decodeTableQ d.retest_table, d.total_updates⟩

def ActionQLearner.to_dict (ql : ActionQLearner) : ActionQLearnerSer :=
  ⟨ql.q_table, ql.total_updates, ql.alpha, ql.gamma, ql.epsilon⟩

def ActionQLearner.from_dict (d : ActionQLearnerSer) : ActionQLearner :=
  ⟨d.q_table, d.alpha, d.gamma, d.epsilon, d.total_updates⟩

def EngagementBandit.to_dict (b : EngagementBandit) : EngagementBanditSer :=
  ⟨encodeTableZ b.profile_table, b.total_updates⟩

def EngagementBandit.from_dict (d : EngagementBanditSer) : EngagementBandit :=
  ⟨decodeTableZ d.profile_table, d.total_updates⟩

def SchedulerBandit.to_dict (b : SchedulerBandit) : SchedulerBanditSer :=
  ⟨encodeTableZ b.profile_table, b.total_updates⟩

def SchedulerBandit.from_dict (d : SchedulerBanditSer) : SchedulerBandit :=
  ⟨decodeTableZ d.profile_table, d.total_updates⟩

/-- The aggregate per-learner policy state (`RLEngine`). -/
structure RLEngine where
  strategy_bandit : StrategyBandit
  difficulty_bandit : DifficultyBandit
  action_q : ActionQLearner
  engagement_bandit : EngagementBandit
  scheduler_bandit : SchedulerBandit
deriving DecidableEq

def RLEngine.init : RLEngine :=
  ⟨StrategyBandit.init, DifficultyBandit.init, ActionQLearner.init,
   EngagementBandit.init, SchedulerBandit.init⟩

/-- The serialized aggregate (`RLEngine.to_dict` always emits all five
sub-blobs, and `RLEngine.from_dict` restores each present one). -/
structure RLEngineSer where
  strategy_bandit : StrategyBanditSer
  difficulty_bandit : DifficultyBanditSer
  action_q : ActionQLearnerSer
  engagement_bandit : EngagementBanditSer
  scheduler_bandit : SchedulerBanditSer
deriving DecidableEq

def RLEngine.to_dict (e : RLEngine) : RLEngineSer :=
  ⟨e.strategy_bandit.to_dict, e.difficulty_bandit.to_dict, e.action_q.to_dict,
   e.engagement_bandit.to_dict, e.scheduler_bandit.to_dict⟩

def RLEngine.from_dict (d : RLEngineSer) : RLEngine :=
  ⟨StrategyBandit.from_dict d.strategy_bandit,
   DifficultyBandit.from_dict d.difficulty_bandit,
   ActionQLearner.from_dict d.action_q,
   EngagementBandit.from_dict d.engagement_bandit,
   SchedulerBandit.from_dict d.scheduler_bandit⟩

/-- The states of the aggregate reachable through its mutating operations
from a fresh policy. -/
inductive Reachable : RLEngine → Prop
  | init : Reachable RLEngine.init
  | update_strategy (e : RLEngine) (s : String) (sc : ℚ) :
      Reachable e →
      Reachable { e with strategy_bandit := e.strategy_bandit.update s sc }
  | update_difficulty (e : RLEngine) (v g : ℚ) (mc : ℕ) (d : ℤ) (t r : ℚ) :
      Reachable e →
      Reachable { e with difficulty_bandit := e.difficulty_bandit.update v g mc d t r }
  | update_retest (e : RLEngine) (v g : ℚ) (mc : ℕ) (m r : ℚ) :
      Reachable e →
      Reachable { e with difficulty_bandit := e.difficulty_bandit.update_retest v g mc m r }
  | update_action (e : RLEngine) (s a : String) (r : ℚ) (ns : String) :
      Reachable e →
      Reachable { e with action_q := e.action_q.update s a r ns }
  | update_engagement (e : RLEngine) (mins : ℚ) (sc ts : List ℚ) (idx : ℤ) (r : ℚ) :
      Reachable e →
      Reachable { e with engagement_bandit := e.engagement_bandit.update mins sc ts idx r }
  | update_scheduler (e : RLEngine) (rs efs : List ℚ) (mc tc : ℕ) (idx : ℤ) (r : ℚ) :
      Reachable e →
      Reachable { e with scheduler_bandit := e.scheduler_bandit.update rs efs mc tc idx r }

/-- Well-formedness of a strategy bandit reachable from fresh: distinct
arm keys, the first five being the fixed strategies in order. -/
def StrategyWF (b : StrategyBandit) : Prop :=
  (akeys b.arms).Nodup ∧ (akeys b.arms).take 5 = ALL_STRATEGIES

def DifficultyWF (b : DifficultyBandit) : Prop :=
  WFTable b.difficulty_table ∧ WFTable b.threshold_table ∧ WFTable b.retest_table

def EngagementWF (b : EngagementBandit) : Prop := WFTable b.profile_table

def SchedulerWF (b : SchedulerBandit) : Prop := WFTable b.profile_table

def RLWF (e : RLEngine) : Prop :=
  StrategyWF e.strategy_bandit ∧ DifficultyWF e.difficulty_bandit ∧
    EngagementWF e.engagement_bandit ∧ SchedulerWF e.scheduler_bandit

theorem aset_wfTable [DecidableEq κ] {t : RewardTable κ} (h : WFTable t)
    {row : RewardRow κ} (hrow : (akeys row).Nodup) (ctx : String) :
    WFTable (aset ctx row t) := by
  constructor
  · exact akeys_nodup_aset h.1 _
  · intro e he
    rcases (mem_aset_iff_of_nodup h.1 _ _).mp he with rfl | ⟨hm, _⟩
    · exact hrow
    · exact h.2 e hm

theorem wfTable_seeded [DecidableEq κ] {t : RewardTable κ} (h : WFTable t)
    (ctx : String) :
    WFTable (if alookup t ctx = none then aset ctx ([] : RewardRow κ) t else t) := by
  by_cases hc : alookup t ctx = none
  · rw [if_pos hc]
    exact aset_wfTable h (by simp [akeys]) ctx
  · rw [if_neg hc]
    exact h

theorem wfTable_lookup_nodup [DecidableEq κ] {t : RewardTable κ} (h : WFTable t)
    (ctx : String) : (akeys ((alookup t ctx).getD ([] : RewardRow κ))).Nodup := by
  cases hv : alookup t ctx with
  | none => simp [akeys]
  | some v => exact h.2 (ctx, v) (alookup_mem hv)

theorem bumpEntry_nodup [DecidableEq κ] {row : RewardRow κ}
    (h : (akeys row).Nodup) (key : κ) (r : ℚ) :
    (akeys (bumpEntry key r row)).Nodup := by
  simp only [bumpEntry]
  apply akeys_nodup_aset
  by_cases hc : alookup row key = none
  · rw [if_pos hc]
    exact akeys_nodup_aset h _
  · rw [if_neg hc]
    exact h

theorem wfTable_bump [DecidableEq κ] {t : RewardTable κ} (h : WFTable t)
    (ctx : String) (key : κ) (r : ℚ) : WFTable (bumpTable ctx key r t) := by
  simp only [bumpTable]
  exact aset_wfTable (wfTable_seeded h ctx)
    (bumpEntry_nodup (wfTable_lookup_nodup (wfTable_seeded h ctx) ctx) key r) ctx

theorem strategyWF_update (b : StrategyBandit) (h : StrategyWF b)
    (st : String) (sc : ℚ) : StrategyWF (b.update st sc) := by
  refine ⟨update_arms_nodup b st sc h.1, ?_⟩
  rw [update_arms_eq]
  by_cases hc : alookup b.arms st = none
  · rw [if_pos hc]
    have hstm : st ∉ akeys b.arms := alookup_eq_none_iff.mp hc
    have hkeys1 : akeys (aset st ((1:ℚ), (1:ℚ)) b.arms) = akeys b.arms ++ [st] :=
      akeys_aset_of_not_mem hstm _
    have hstm2 : st ∈ akeys (aset st ((1:ℚ), (1:ℚ)) b.arms) := by
      rw [hkeys1]
      exact List.mem_append_right _ (List.mem_singleton.mpr rfl)
    rw [akeys_aset_of_mem hstm2, hkeys1]
    have hlen : 5 ≤ (akeys b.arms).length := by
      have hl := congrArg List.length h.2
      rw [List.length_take] at hl
      have h5 : ALL_STRATEGIES.length = 5 := rfl
      omega
    rw [List.take_append_of_le_length hlen]
    exact h.2
  · rw [if_neg hc]
    have hstm : st ∈ akeys b.arms := by
      by_contra hcon
      exact hc (alookup_eq_none_iff.mpr hcon)
    rw [akeys_aset_of_mem hstm]
    exact h.2

theorem wfTable_nil [DecidableEq κ] : WFTable ([] : RewardTable κ) := by
  constructor
  · exact List.nodup_nil
  · intro e he
    exact absurd he (List.not_mem_nil e)

theorem reachable_wf {e : RLEngine} (h : Reachable e) : RLWF e := by
  induction h with
  | init =>
    refine ⟨⟨by decide, by decide⟩, ⟨wfTable_nil, wfTable_nil, wfTable_nil⟩,
      wfTable_nil, wfTable_nil⟩
  | update_strategy e s sc _ ih =>
    exact ⟨strategyWF_update _ ih.1 s sc, ih.2.1, ih.2.2.1, ih.2.2.2⟩
  | update_difficulty e v g mc d t r _ ih =>
    exact ⟨ih.1, ⟨wfTable_bump ih.2.1.1 _ _ _, wfTable_bump ih.2.1.2.1 _ _ _,
      ih.2.1.2.2⟩, ih.2.2.1, ih.2.2.2⟩
  | update_retest e v g mc m r _ ih =>
    exact ⟨ih.1, ⟨ih.2.1.1, ih.2.1.2.1, wfTable_bump ih.2.1.2.2 _ _ _⟩,
      ih.2.2.1, ih.2.2.2⟩
  | update_action e s a r ns _ ih =>
    exact ⟨ih.1, ih.2.1, ih.2.2.1, ih.2.2.2⟩
  | update_engagement e mins sc ts idx r _ ih =>
    exact ⟨ih.1, ih.2.1, wfTable_bump ih.2.2.1 _ _ _, ih.2.2.2⟩
  | update_scheduler e rs efs mc tc idx r _ ih =>
    exact ⟨ih.1, ih.2.1, ih.2.2.1, wfTable_bump ih.2.2.2 _ _ _⟩

theorem strategy_to_from (b : StrategyBandit) (h : StrategyWF b) :
    StrategyBandit.from_dict b.to_dict = b := by
  obtain ⟨arms⟩ := b
  rw [StrategyBandit.from_dict, StrategyBandit.to_dict]
  congr 1
  apply foldl_aset_extend
  · exact h.1
  · rw [show akeys StrategyBandit.init.arms = ALL_STRATEGIES from rfl,
      show StrategyBandit.init.arms.length = 5 from rfl]
    exact h.2.symm

theorem difficulty_to_from (b : DifficultyBandit) (h : DifficultyWF b) :
    DifficultyBandit.from_dict b.to_dict = b := by
  obtain ⟨dt, tt, rt, n⟩ := b
  show (⟨decodeTableZ (encodeTableZ dt), decodeTableQ (encodeTableQ tt),
    decodeTableQ (encodeTableQ rt), n⟩ : DifficultyBandit) = ⟨dt, tt, rt, n⟩
  rw [decodeTableZ_encodeTableZ dt h.1, decodeTableQ_encodeTableQ tt h.2.1,
    decodeTableQ_encodeTableQ rt h.2.2]

theorem actionq_to_from (ql : ActionQLearner) :
    ActionQLearner.from_dict ql.to_dict = ql := rfl

theorem engagement_to_from (b : EngagementBandit) (h : EngagementWF b) :
    EngagementBandit.from_dict b.to_dict = b := by
  obtain ⟨pt, n⟩ := b
  show (⟨decodeTableZ (encodeTableZ pt), n⟩ : EngagementBandit) = ⟨pt, n⟩
  rw [decodeTableZ_encodeTableZ pt h]

theorem scheduler_to_from (b : SchedulerBandit) (h : SchedulerWF b) :
    SchedulerBandit.from_dict b.to_dict = b := by
  obtain ⟨pt, n⟩ := b
  show (⟨decodeTableZ (encodeTableZ pt), n⟩ : SchedulerBandit) = ⟨pt, n⟩
  rw [decodeTableZ_encodeTableZ pt h]

/-- C5: for every reachable aggregate policy state, deserializing the
serialized plain-map representation reconstructs it exactly — including
the round-trip of integer and float table keys through their string
form. -/
theorem C5_serialization_roundtrip (e : RLEngine) (h : Reachable e) :
    RLEngine.from_dict e.to_dict = e := by
  have hwf := reachable_wf h
  obtain ⟨sb, db, aq, eb, scb⟩ := e
  show (⟨StrategyBandit.from_dict sb.to_dict, DifficultyBandit.from_dict db.to_dict,
    ActionQLearner.from_dict aq.to_dict, EngagementBandit.from_dict eb.to_dict,
    SchedulerBandit.from_dict scb.to_dict⟩ : RLEngine) = ⟨sb, db, aq, eb, scb⟩
  rw [strategy_to_from sb hwf.1, difficulty_to_from db hwf.2.1, actionq_to_from aq,
    engagement_to_from eb hwf.2.2.1, scheduler_to_from scb hwf.2.2.2]

/-- A concrete reachable state for the C5 witness: one strategy update and
one difficulty/threshold update (with float threshold key 0.7). -/
def c5Engine1 : RLEngine :=
  { RLEngine.init with
    strategy_bandit := RLEngine.init.strategy_bandit.update "analogy" (1/2) }

def c5Engine : RLEngine :=
  { c5Engine1 with
    difficulty_bandit := c5Engine1.difficulty_bandit.update 1 0 0 2 (7/10) 1 }

/-- Witness for C5 at a concrete reachable state. -/
theorem C5_serialization_roundtrip_witness :
    RLEngine.from_dict c5Engine.to_dict = c5Engine :=
  C5_serialization_roundtrip c5Engine
    (Reachable.update_difficulty c5Engine1 1 0 0 2 (7/10) 1
      (Reachable.update_strategy RLEngine.init "analogy" (1/2) Reachable.init))

/-! ## Knowledge graph (`backend/services/knowledge_graph.py`) -/

/-- A transfer edge (`TransferEdge` in `models/concept.py`); the free-text
`type` and `description` fields play no part in any modelled computation
and are omitted. -/
structure GTransferEdge where
  target : String
  strength : ℚ
deriving DecidableEq

/-- A concept node; only the fields read by the path computation are
modelled (`name`, `description`, misconception and mastery metadata are
never consulted by `compute_learning_path`). -/
structure GConcept where
  id : String
  domain : String
  difficulty_tier : ℕ
  prerequisites : List String
  transfers_to : List GTransferEdge
  base_hours : ℚ
deriving DecidableEq

/-- The concept dict of `KnowledgeGraphService`, as an insertion-ordered
list with unique ids. -/
abbrev Graph := List GConcept

/-- Dict lookup `self.concepts.get(concept_id)`. -/
def findConcept (g : Graph) (cid : String) : Option GConcept :=
  g.find? (fun c => decide (c.id = cid))

/-- `get_prerequisites`: the prerequisite list, `[]` for an unknown id. -/
def getPrerequisites (g : Graph) (cid : String) : List String :=
  match findConcept g cid with
  | some c => c.prerequisites
  | none => []

/-- `get_transfer_edge`: the first stored edge from `src` to `dst`. -/
def getTransferEdge (g : Graph) (src dst : String) : Option GTransferEdge :=
  match findConcept g src with
  | none => none
  | some c => c.transfers_to.find? (fun e => decide (e.target = dst))

/-- Fuel bound for the prerequisite-closure walk: every id is expanded at
most once, so the total stack traffic is bounded by the sum of all
prerequisite-list lengths. -/
def graphPrereqSize (g : Graph) : ℕ :=
  (g.map (fun c => c.prerequisites.length)).sum

/-- The stack loop of `get_all_prerequisites`; the Python list-stack pops
from the end, modelled here as a head stack with extensions prepended in
reverse. The result set is a duplicate-free list in discovery order. -/
def allPrereqsAux (g : Graph) : ℕ → List String → List String → List String
  | 0, _, result => result
  | _ + 1, [], result => result
  | fuel + 1, pid :: stack, result =>
      if pid ∈ result then allPrereqsAux g fuel stack result
      else allPrereqsAux g fuel ((getPrerequisites g pid).reverse ++ stack) (result ++ [pid])

/-- `get_all_prerequisites`: transitive prerequisite closure of one id. -/
def allPrereqsOf (g : Graph) (cid : String) : List String :=
  allPrereqsAux g (graphPrereqSize g + (getPrerequisites g cid).length + 1)
    ((getPrerequisites g cid).reverse) []

/-- `required = targets ∪ their transitive prerequisites` (a set, modelled
as a duplicate-free list). -/
def requiredOf (g : Graph) (targets : List String) : List String :=
  (targets.flatMap (fun cid => cid :: allPrereqsOf g cid)).eraseDups

/-- `unmastered = required - mastered`. -/
def unmasteredOf (g : Graph) (targets mastered : List String) : List String :=
  (requiredOf g targets).filter (fun c => decide (c ∉ mastered))

/-- `transfer_bonus`: the maximum transfer strength from any mastered
concept into `cid`, starting at `0.0`. -/
def transferBonus (g : Graph) (mastered : List String) (cid : String) : ℚ :=
  mastered.foldl (fun acc mid =>
    match getTransferEdge g mid cid with
    | some e => max acc e.strength
    | none => acc) 0

/-- The per-concept adjusted weight of `compute_learning_path` (`None`
for an id missing from the graph, mirroring the skipped dict entry). -/
def conceptWeight (g : Graph) (mastered : List String) (vels : List (String × ℚ))
    (cid : String) : Option ℚ :=
  match findConcept g cid with
  | none => none
  | some c =>
      some (c.base_hours * (1 - transferBonus g mastered cid * (2/5)) /
        max ((alookup vels c.domain).getD 1) (1/10))

/-- Python `round(x, 1)`. -/
def round1 (q : ℚ) : ℚ := ((round (q * 10) : ℤ) : ℚ) / 10

/-- One returned path entry. -/
structure PathEntry where
  concept_id : String
  estimated_hours : ℚ
deriving DecidableEq

/-- Count of outgoing transfer edges from `cid` into still-unscheduled
members of the working set (the generator-sum in the source; at initial
queue construction `done` is empty). -/
def transferOutDeg (g : Graph) (concepts : List String) (cid : String)
    (done : List String) : ℕ :=
  (concepts.filter (fun other =>
    decide ((getTransferEdge g cid other).isSome ∧ other ∉ done))).length

/-- Sorted insertion into the pending min-heap: `heapq` pops the
lexicographically smallest `(-transfer_out, concept_id)` tuple, and all
queued tuples are distinct, so the heap is observably a sorted list. -/
def insertPQ (x : ℤ × String) : List (ℤ × String) → List (ℤ × String)
  | [] => [x]
  | y :: ys =>
      if x.1 < y.1 ∨ (x.1 = y.1 ∧ x.2 < y.2) then x :: y :: ys
      else y :: insertPQ x ys

/-- Initial in-degrees: occurrences of in-set prerequisites, counted with
list multiplicity, as the source loop does. -/
def initInDeg (g : Graph) (concepts : List String) : String → ℤ :=
  fun c =>
    if c ∈ concepts then
      ((getPrerequisites g c).countP (fun p => decide (p ∈ concepts)) : ℤ)
    else 0

/-- Initial queue: every zero-in-degree member, keyed by negated transfer
out-degree. -/
def initQueue (g : Graph) (concepts : List String) (inDeg : String → ℤ) :
    List (ℤ × String) :=
  concepts.foldl (fun q cid =>
    if inDeg cid = 0 then
      insertPQ (-(transferOutDeg g concepts cid [] : ℤ), cid) q
    else q) []

/-- The inner `for dep in concepts` loop body of the source: after popping
`cid`, decrement the in-degree of every not-yet-done dependent of `cid`
and push those that reach zero with their recomputed transfer out-degree. -/
def topoFoldStep (g : Graph) (concepts : List String) (cid : String)
    (done2 : List String) (acc : List (ℤ × String) × (String → ℤ))
    (dep : String) : List (ℤ × String) × (String → ℤ) :=
  if cid ∈ getPrerequisites g dep ∧ dep ∉ done2 then
    let v := acc.2 dep - 1
    let deg2 := fun x => if x = dep then v else acc.2 x
    if v = 0 then
      (insertPQ (-(transferOutDeg g concepts dep done2 : ℤ), dep) acc.1, deg2)
    else (acc.1, deg2)
  else acc

/-- The body of the `while queue` loop of `_transfer_optimized_toposort`:
pop the minimum, append it to the result and to `done`, then decrement the
in-degree of every not-yet-done dependent, pushing those that reach zero
with their recomputed transfer out-degree. Runs on fuel; the loop body
executes at most once per member of the working set, so the fuel chosen by
`transferOptimizedToposort` is never exhausted before the queue empties. -/
def toposortLoop (g : Graph) (concepts : List String) (weights : String → ℚ) :
    ℕ → List (ℤ × String) → List PathEntry → List String → (String → ℤ) →
      List PathEntry
  | 0, _, result, _, _ => result
  | _ + 1, [], result, _, _ => result
  | fuel + 1, (_, cid) :: rest, result, done, inDeg =>
      let result2 := result ++ [⟨cid, round1 (weights cid)⟩]
      let done2 := done ++ [cid]
      let st2 := concepts.foldl (topoFoldStep g concepts cid done2) (rest, inDeg)
      toposortLoop g concepts weights fuel st2.1 result2 done2 st2.2

/-- `_transfer_optimized_toposort`. -/
def transferOptimizedToposort (g : Graph) (concepts : List String)
    (weights : String → ℚ) : List PathEntry :=
  toposortLoop g concepts weights (2 * concepts.length + 1)
    (initQueue g concepts (initInDeg g concepts)) [] [] (initInDeg g concepts)

/-- `compute_learning_path`. -/
def computeLearningPath (g : Graph) (targets mastered : List String)
    (vels : List (String × ℚ)) : List PathEntry :=
  transferOptimizedToposort g (unmasteredOf g targets mastered)
    (fun cid => (conceptWeight g mastered vels cid).getD 2)

/-- The ordered concept ids of a computed path. -/
def pathIds (g : Graph) (targets mastered : List String)
    (vels : List (String × ℚ)) : List String :=
  (computeLearningPath g targets mastered vels).map PathEntry.concept_id

/-! ### C1/C2: invariants of the transfer-optimized topological sort -/

theorem insertPQ_perm (x : ℤ × String) (q : List (ℤ × String)) :
    List.Perm (insertPQ x q) (x :: q) := by
  induction q with
  | nil => exact List.Perm.refl _
  | cons y ys ih =>
    rw [insertPQ]
    by_cases hc : x.1 < y.1 ∨ (x.1 = y.1 ∧ x.2 < y.2)
    · rw [if_pos hc]
    · rw [if_neg hc]
      exact (List.Perm.cons y ih).trans (List.Perm.swap x y ys)

theorem mem_insertPQ {x e : ℤ × String} {q : List (ℤ × String)} :
    e ∈ insertPQ x q ↔ e = x ∨ e ∈ q := by
  rw [(insertPQ_perm x q).mem_iff, List.mem_cons]

/-- Occurrence count of in-set prerequisites of a concept. -/
def occCount (g : Graph) (concepts : List String) (c : String) : ℕ :=
  (getPrerequisites g c).countP (fun p => decide (p ∈ concepts))

/-- All in-set prerequisites of `c` already appear in `done`. -/
def coveredBy (g : Graph) (concepts done : List String) (c : String) : Prop :=
  ∀ p ∈ getPrerequisites g c, p ∈ concepts → p ∈ done

/-- Ordering soundness of a schedule: every in-set prerequisite of the
concept at position `n` already occurs among the first `n` entries. -/
def StrongGood (g : Graph) (concepts ids : List String) : Prop :=
  ∀ n (hn : n < ids.length), ∀ p, p ∈ getPrerequisites g (ids.get ⟨n, hn⟩) →
    p ∈ concepts → p ∈ ids.take n

theorem coverage_of_countP (g : Graph) (concepts done : List String) (c : String)
    (hnd : done.Nodup) (hsub : ∀ d ∈ done, d ∈ concepts)
    (hcount : (done.countP (fun d => decide (d ∈ getPrerequisites g c)) : ℤ) =
      (occCount g concepts c : ℤ)) :
    coveredBy g concepts done c := by
  intro p hp hpc
  set P := getPrerequisites g c with hP
  have hcount2 : done.countP (fun d => decide (d ∈ P)) =
      P.countP (fun q => decide (q ∈ concepts)) := by
    have := hcount
    rw [occCount] at this
    exact_mod_cast this
  set A := done.filter (fun d => decide (d ∈ P)) with hA
  set B := P.filter (fun q => decide (q ∈ concepts)) with hB
  have hAnd : A.Nodup := hnd.filter _
  have hAsubB : A.toFinset ⊆ B.toFinset := by
    intro a ha
    rw [List.mem_toFinset] at ha ⊢
    rw [hA, List.mem_filter] at ha
    rw [hB, List.mem_filter]
    refine ⟨of_decide_eq_true ha.2, ?_⟩
    exact decide_eq_true (hsub a ha.1)
  have hcardA : A.toFinset.card = A.length := List.toFinset_card_of_nodup hAnd
  have hlenA : A.length = done.countP (fun d => decide (d ∈ P)) :=
    (List.countP_eq_length_filter _ _).symm
  have hcardB : B.toFinset.card ≤ B.length := List.toFinset_card_le B
  have hlenB : B.length = P.countP (fun q => decide (q ∈ concepts)) :=
    (List.countP_eq_length_filter _ _).symm
  have hBA : B.toFinset ⊆ A.toFinset := by
    apply Finset.subset_of_eq
    apply (Finset.eq_of_subset_of_card_le hAsubB ?_).symm
    calc B.toFinset.card ≤ B.length := hcardB
      _ = P.countP (fun q => decide (q ∈ concepts)) := hlenB
      _ = done.countP (fun d => decide (d ∈ P)) := hcount2.symm
      _ = A.length := hlenA.symm
      _ = A.toFinset.card := hcardA.symm
  have hpB : p ∈ B.toFinset := by
    rw [List.mem_toFinset, hB, List.mem_filter]
    exact ⟨hp, decide_eq_true hpc⟩
  have hpA := hBA hpB
  rw [List.mem_toFinset, hA, List.mem_filter] at hpA
  exact hpA.1

theorem topo_fold_inv (g : Graph) (concepts : List String) (cid : String)
    (done2 : List String) (hd2nd : done2.Nodup)
    (hd2sub : ∀ d ∈ done2, d ∈ concepts) :
    ∀ l : List String, (∀ x ∈ l, x ∈ concepts) → l.Nodup →
    ∀ acc : List (ℤ × String) × (String → ℤ),
      (∀ c ∈ concepts, c ∉ done2 →
        acc.2 c = (occCount g concepts c : ℤ) -
          (done2.countP (fun d => decide (d ∈ getPrerequisites g c)) : ℤ) +
          (if cid ∈ getPrerequisites g c ∧ c ∈ l then 1 else 0)) →
      (∀ qe ∈ acc.1, qe.2 ∈ concepts ∧ coveredBy g concepts done2 qe.2 ∧ acc.2 qe.2 ≤ 0) →
      (done2 ++ acc.1.map Prod.snd).Nodup →
      (∀ c ∈ concepts, c ∉ done2 →
        (l.foldl (topoFoldStep g concepts cid done2) acc).2 c =
          (occCount g concepts c : ℤ) -
          (done2.countP (fun d => decide (d ∈ getPrerequisites g c)) : ℤ)) ∧
      (∀ qe ∈ (l.foldl (topoFoldStep g concepts cid done2) acc).1,
        qe.2 ∈ concepts ∧ coveredBy g concepts done2 qe.2 ∧
        (l.foldl (topoFoldStep g concepts cid done2) acc).2 qe.2 ≤ 0) ∧
      (done2 ++ ((l.foldl (topoFoldStep g concepts cid done2) acc).1.map Prod.snd)).Nodup := by
  intro l
  induction l with
  | nil =>
    intro _ _ acc hdeg hq hnd
    refine ⟨?_, hq, hnd⟩
    intro c hc hcd
    have h0 := hdeg c hc hcd
    rw [List.foldl_nil, h0, if_neg (by simp)]
    ring
  | cons dep l' ih =>
    intro hlsub hlnd acc hdeg hq hnd
    have hlcons := List.nodup_cons.mp hlnd
    have hlsub2 : ∀ x ∈ l', x ∈ concepts :=
      fun x hx => hlsub x (List.mem_cons_of_mem dep hx)
    have hdepc : dep ∈ concepts := hlsub dep (List.mem_cons_self dep l')
    have hbody : topoFoldStep g concepts cid done2 acc dep =
        if cid ∈ getPrerequisites g dep ∧ dep ∉ done2 then
          (if acc.2 dep - 1 = 0 then
            (insertPQ (-(transferOutDeg g concepts dep done2 : ℤ), dep) acc.1,
             fun x => if x = dep then acc.2 dep - 1 else acc.2 x)
          else (acc.1, fun x => if x = dep then acc.2 dep - 1 else acc.2 x))
        else acc := rfl
    rw [List.foldl_cons]
    by_cases hP : cid ∈ getPrerequisites g dep ∧ dep ∉ done2
    · have hvval : acc.2 dep = (occCount g concepts dep : ℤ) -
          (done2.countP (fun d => decide (d ∈ getPrerequisites g dep)) : ℤ) + 1 := by
        have h0 := hdeg dep hdepc hP.2
        rw [h0, if_pos ⟨hP.1, List.mem_cons_self dep l'⟩]
      have hdeg2 : ∀ c ∈ concepts, c ∉ done2 →
          (if c = dep then acc.2 dep - 1 else acc.2 c) =
            (occCount g concepts c : ℤ) -
            (done2.countP (fun d => decide (d ∈ getPrerequisites g c)) : ℤ) +
            (if cid ∈ getPrerequisites g c ∧ c ∈ l' then 1 else 0) := by
        intro c hc hcd
        by_cases hcdep : c = dep
        · subst hcdep
          rw [if_pos rfl, hvval,
            if_neg (fun hcon => hlcons.1 hcon.2)]
          ring
        · rw [if_neg hcdep]
          have h0 := hdeg c hc hcd
          rw [h0]
          simp only [List.mem_cons, hcdep, false_or]
      by_cases hv : acc.2 dep - 1 = 0
      · have hstep : topoFoldStep g concepts cid done2 acc dep =
            (insertPQ (-(transferOutDeg g concepts dep done2 : ℤ), dep) acc.1,
             fun x => if x = dep then acc.2 dep - 1 else acc.2 x) := by
          rw [hbody, if_pos hP, if_pos hv]
        have hcover : coveredBy g concepts done2 dep := by
          apply coverage_of_countP g concepts done2 dep hd2nd hd2sub
          omega
        have hdepq : dep ∉ acc.1.map Prod.snd := by
          intro hcon
          obtain ⟨qe, hqe, hqe2⟩ := List.mem_map.mp hcon
          have := (hq qe hqe).2.2
          rw [hqe2] at this
          omega
        rw [hstep]
        apply ih hlsub2 hlcons.2
        · exact hdeg2
        · intro qe hqe
          rcases mem_insertPQ.mp hqe with rfl | hqe2
          · refine ⟨hdepc, hcover, ?_⟩
            simp only [if_true]
            omega
          · obtain ⟨hq1, hq2, hq3⟩ := hq qe hqe2
            refine ⟨hq1, hq2, ?_⟩
            simp only []
            by_cases hqd : qe.2 = dep
            · rw [if_pos hqd]
              omega
            · rw [if_neg hqd]
              exact hq3
        · have hperm1 : List.Perm ((insertPQ (-(transferOutDeg g concepts dep done2 : ℤ), dep) acc.1).map Prod.snd)
              (dep :: acc.1.map Prod.snd) :=
            (insertPQ_perm _ _).map Prod.snd
          have hperm2 : List.Perm
              (done2 ++ (insertPQ (-(transferOutDeg g concepts dep done2 : ℤ), dep) acc.1).map Prod.snd)
              (dep :: (done2 ++ acc.1.map Prod.snd)) :=
            ((hperm1.append_left done2).trans List.perm_middle)
          apply hperm2.nodup_iff.mpr
          rw [List.nodup_cons]
          refine ⟨?_, hnd⟩
          intro hcon
          rcases List.mem_append.mp hcon with h1 | h1
          · exact hP.2 h1
          · exact hdepq h1
      · have hstep : topoFoldStep g concepts cid done2 acc dep =
            (acc.1, fun x => if x = dep then acc.2 dep - 1 else acc.2 x) := by
          rw [hbody, if_pos hP, if_neg hv]
        rw [hstep]
        apply ih hlsub2 hlcons.2
        · exact hdeg2
        · intro qe hqe
          obtain ⟨hq1, hq2, hq3⟩ := hq qe hqe
          refine ⟨hq1, hq2, ?_⟩
          simp only []
          by_cases hqd : qe.2 = dep
          · rw [if_pos hqd]
            rw [hqd] at hq3
            omega
          · rw [if_neg hqd]
            exact hq3
        · exact hnd
    · have hstep : topoFoldStep g concepts cid done2 acc dep = acc := by
        rw [hbody, if_neg hP]
      rw [hstep]
      apply ih hlsub2 hlcons.2
      · intro c hc hcd
        have h0 := hdeg c hc hcd
        rw [h0]
        by_cases hcdep : c = dep
        · subst hcdep
          have hnp : cid ∉ getPrerequisites g c := by
            intro hcon
            exact hP ⟨hcon, hcd⟩
          rw [if_neg (fun hcon => hnp hcon.1), if_neg (fun hcon => hnp hcon.1)]
        · simp only [List.mem_cons, hcdep, false_or]
      · exact hq
      · exact hnd

theorem mem_take_get {ids : List String} {n : ℕ} {p : String} (h : p ∈ ids.take n) :
    ∃ m, ∃ hmn : m < n, ∃ hml : m < ids.length, ids.get ⟨m, hml⟩ = p := by
  obtain ⟨m, hm⟩ := List.mem_iff_getElem?.mp h
  have hmlt : m < (ids.take n).length := by
    by_contra hge
    rw [List.getElem?_eq_none (by omega)] at hm
    exact Option.noConfusion hm
  rw [List.length_take] at hmlt
  have hmn : m < n := lt_of_lt_of_le hmlt (min_le_left _ _)
  have hml : m < ids.length := lt_of_lt_of_le hmlt (min_le_right _ _)
  refine ⟨m, hmn, hml, ?_⟩
  rw [List.getElem?_take_of_lt hmn, List.getElem?_eq_getElem hml] at hm
  have := Option.some.inj hm
  simpa [List.get_eq_getElem] using this

theorem strongGood_append (g : Graph) (concepts done : List String) (cid : String)
    (hsg : StrongGood g concepts done) (hcov : coveredBy g concepts done cid) :
    StrongGood g concepts (done ++ [cid]) := by
  intro n hn p hp hpc
  have hlen : (done ++ [cid]).length = done.length + 1 := by simp
  by_cases hlt : n < done.length
  · have hget : (done ++ [cid]).get ⟨n, hn⟩ = done.get ⟨n, hlt⟩ := by
      rw [List.get_eq_getElem, List.get_eq_getElem, List.getElem_append_left]
    rw [hget] at hp
    rw [List.take_append_of_le_length (le_of_lt hlt)]
    exact hsg n hlt p hp hpc
  · have hneq : n = done.length := by rw [hlen] at hn; omega
    subst hneq
    have hget : (done ++ [cid]).get ⟨done.length, hn⟩ = cid := by
      rw [List.get_eq_getElem, List.getElem_concat_length]
      rfl
    rw [hget] at hp
    rw [List.take_left]
    exact hcov p hp hpc

/-- `c` belongs to a nonempty subset of the working set each of whose
members has a prerequisite inside the subset: the support of a
prerequisite cycle restricted to the working set. -/
def OnPrereqCycle (g : Graph) (concepts : List String) (c : String) : Prop :=
  ∃ l : List String, c ∈ l ∧ (∀ x ∈ l, x ∈ concepts) ∧
    ∀ x ∈ l, ∃ p ∈ l, p ∈ getPrerequisites g x

theorem strongGood_not_mem_of_cycle (g : Graph) (concepts ids : List String)
    (c : String) (hsg : StrongGood g concepts ids)
    (hcyc : OnPrereqCycle g concepts c) : c ∉ ids := by
  obtain ⟨l, hcl, hlsub, hstep⟩ := hcyc
  have key : ∀ n, ∀ hn : n < ids.length, ids.get ⟨n, hn⟩ ∉ l := by
    intro n
    induction n using Nat.strong_induction_on with
    | _ n ih =>
      intro hn hmem
      obtain ⟨p, hpl, hpx⟩ := hstep _ hmem
      have hptake : p ∈ ids.take n := hsg n hn p hpx (hlsub p hpl)
      obtain ⟨m, hmn, hml, hmp⟩ := mem_take_get hptake
      apply ih m hmn hml
      rw [hmp]
      exact hpl
  intro hcin
  obtain ⟨⟨n, hn⟩, hget⟩ := List.mem_iff_get.mp hcin
  apply key n hn
  rw [hget]
  exact hcl

theorem eraseDups_loop_nodup : ∀ as bs : List String, bs.Nodup →
    (List.eraseDups.loop as bs).Nodup := by
  intro as
  induction as with
  | nil =>
    intro bs h
    show bs.reverse.Nodup
    exact List.nodup_reverse.mpr h
  | cons a as ih =>
    intro bs h
    show (match bs.elem a with
      | true => List.eraseDups.loop as bs
      | false => List.eraseDups.loop as (a :: bs)).Nodup
    cases helem : bs.elem a
    · refine ih (a :: bs) (List.nodup_cons.mpr ⟨?_, h⟩)
      intro hmem
      have hcontra : bs.elem a = true := List.elem_iff.mpr hmem
      rw [helem] at hcontra
      exact Bool.noConfusion hcontra
    · exact ih bs h

theorem nodup_eraseDups (l : List String) : l.eraseDups.Nodup :=
  eraseDups_loop_nodup l [] List.nodup_nil

theorem nodup_unmasteredOf (g : Graph) (targets mastered : List String) :
    (unmasteredOf g targets mastered).Nodup :=
  (nodup_eraseDups _).filter _

theorem initQueue_fold_perm (g : Graph) (concepts : List String)
    (inDeg : String → ℤ) :
    ∀ (l : List String) (q : List (ℤ × String)),
      List.Perm ((l.foldl (fun q cid =>
          if inDeg cid = 0 then
            insertPQ (-(transferOutDeg g concepts cid [] : ℤ), cid) q
          else q) q).map Prod.snd)
        ((l.filter (fun c => decide (inDeg c = 0))) ++ q.map Prod.snd) := by
  intro l
  induction l with
  | nil => intro q; simp
  | cons c l ih =>
    intro q
    rw [List.foldl_cons]
    by_cases hc : inDeg c = 0
    · rw [if_pos hc]
      have h1 := ih (insertPQ (-(transferOutDeg g concepts c [] : ℤ), c) q)
      have h2 : List.Perm
          ((insertPQ (-(transferOutDeg g concepts c [] : ℤ), c) q).map Prod.snd)
          (c :: q.map Prod.snd) := (insertPQ_perm _ _).map Prod.snd
      have h3 := h1.trans ((h2.append_left _).trans List.perm_middle)
      rw [List.filter_cons, if_pos (decide_eq_true hc)]
      exact h3
    · rw [if_neg hc]
      rw [List.filter_cons, if_neg (by simpa using hc)]
      exact ih q

theorem initQueue_map_perm (g : Graph) (concepts : List String)
    (inDeg : String → ℤ) :
    List.Perm ((initQueue g concepts inDeg).map Prod.snd)
      (concepts.filter (fun c => decide (inDeg c = 0))) := by
  have h := initQueue_fold_perm g concepts inDeg concepts []
  simpa using h

theorem mem_initQueue_snd (g : Graph) (concepts : List String)
    (inDeg : String → ℤ) (qe : ℤ × String)
    (hqe : qe ∈ initQueue g concepts inDeg) :
    qe.2 ∈ concepts ∧ inDeg qe.2 = 0 := by
  have hmem : qe.2 ∈ (initQueue g concepts inDeg).map Prod.snd :=
    List.mem_map.mpr ⟨qe, hqe, rfl⟩
  have hfil := (initQueue_map_perm g concepts inDeg).mem_iff.mp hmem
  rw [List.mem_filter] at hfil
  exact ⟨hfil.1, of_decide_eq_true hfil.2⟩

theorem toposortLoop_strongGood (g : Graph) (concepts : List String)
    (weights : String → ℚ) (hcnd : concepts.Nodup) :
    ∀ (fuel : ℕ) (queue : List (ℤ × String)) (result : List PathEntry)
      (done : List String) (inDeg : String → ℤ),
      done = result.map PathEntry.concept_id →
      (∀ d ∈ done, d ∈ concepts) →
      (done ++ queue.map Prod.snd).Nodup →
      StrongGood g concepts done →
      (∀ c ∈ concepts, c ∉ done →
        inDeg c = (occCount g concepts c : ℤ) -
          (done.countP (fun d => decide (d ∈ getPrerequisites g c)) : ℤ)) →
      (∀ qe ∈ queue, qe.2 ∈ concepts ∧ coveredBy g concepts done qe.2 ∧
        inDeg qe.2 ≤ 0) →
      StrongGood g concepts
        ((toposortLoop g concepts weights fuel queue result done inDeg).map
          PathEntry.concept_id) := by
  intro fuel
  induction fuel with
  | zero =>
    intro queue result done inDeg h3 _ _ h6 _ _
    have hz : toposortLoop g concepts weights 0 queue result done inDeg =
        result := rfl
    rw [hz, ← h3]
    exact h6
  | succ fuel ih =>
    intro queue result done inDeg h3 h5 h4 h6 h1 h2
    rcases queue with _ | ⟨⟨w, cid⟩, rest⟩
    · have hz : toposortLoop g concepts weights (fuel + 1) [] result done inDeg =
          result := rfl
      rw [hz, ← h3]
      exact h6
    · have hstep : toposortLoop g concepts weights (fuel + 1)
          ((w, cid) :: rest) result done inDeg =
          toposortLoop g concepts weights fuel
            (concepts.foldl (topoFoldStep g concepts cid (done ++ [cid]))
              (rest, inDeg)).1
            (result ++ [⟨cid, round1 (weights cid)⟩]) (done ++ [cid])
            (concepts.foldl (topoFoldStep g concepts cid (done ++ [cid]))
              (rest, inDeg)).2 := rfl
      rw [hstep]
      obtain ⟨hcidc, hcidcov, _⟩ := h2 (w, cid) (List.mem_cons_self _ _)
      have h4' : ((done ++ [cid]) ++ rest.map Prod.snd).Nodup := by
        rw [List.append_assoc, List.singleton_append]
        rw [List.map_cons] at h4
        exact h4
      have hd2nd : (done ++ [cid]).Nodup := h4'.of_append_left
      have hd2sub : ∀ d ∈ done ++ [cid], d ∈ concepts := by
        intro d hd
        rcases List.mem_append.mp hd with hh | hh
        · exact h5 d hh
        · rw [List.mem_singleton] at hh
          rw [hh]
          exact hcidc
      have hdeg0 : ∀ c ∈ concepts, c ∉ done ++ [cid] →
          inDeg c = (occCount g concepts c : ℤ) -
            ((done ++ [cid]).countP
              (fun d => decide (d ∈ getPrerequisites g c)) : ℤ) +
            (if cid ∈ getPrerequisites g c ∧ c ∈ concepts then 1 else 0) := by
        intro c hc hcd
        have hcd0 : c ∉ done := fun hh => hcd (List.mem_append_left _ hh)
        have h0 := h1 c hc hcd0
        have hcnt : (done ++ [cid]).countP
            (fun d => decide (d ∈ getPrerequisites g c)) =
            done.countP (fun d => decide (d ∈ getPrerequisites g c)) +
            (if cid ∈ getPrerequisites g c then 1 else 0) := by
          rw [List.countP_append]
          congr 1
          by_cases hmem : cid ∈ getPrerequisites g c
          · rw [if_pos hmem]
            simp [hmem]
          · rw [if_neg hmem]
            simp [hmem]
        have hite : (if cid ∈ getPrerequisites g c ∧ c ∈ concepts then (1 : ℤ)
            else 0) = (if cid ∈ getPrerequisites g c then 1 else 0) := by
          by_cases hmem : cid ∈ getPrerequisites g c
          · rw [if_pos ⟨hmem, hc⟩, if_pos hmem]
          · rw [if_neg (fun hh => hmem hh.1), if_neg hmem]
        rw [h0, hite, hcnt]
        push_cast
        by_cases hmem : cid ∈ getPrerequisites g c
        · rw [if_pos hmem]
          ring
        · rw [if_neg hmem]
          ring
      have hq0 : ∀ qe ∈ rest, qe.2 ∈ concepts ∧
          coveredBy g concepts (done ++ [cid]) qe.2 ∧ inDeg qe.2 ≤ 0 := by
        intro qe hqe
        obtain ⟨ha, hb, hc2⟩ := h2 qe (List.mem_cons_of_mem _ hqe)
        exact ⟨ha, fun p hp hpc => List.mem_append_left _ (hb p hp hpc), hc2⟩
      obtain ⟨hf1, hf2, hf3⟩ := topo_fold_inv g concepts cid (done ++ [cid])
        hd2nd hd2sub concepts (fun x hx => hx) hcnd (rest, inDeg) hdeg0 hq0 h4'
      apply ih
      · rw [List.map_append, ← h3]
        rfl
      · exact hd2sub
      · exact hf3
      · exact strongGood_append g concepts done cid h6 hcidcov
      · exact hf1
      · exact hf2

theorem pathIds_strongGood (g : Graph) (targets mastered : List String)
    (vels : List (String × ℚ)) :
    StrongGood g (unmasteredOf g targets mastered)
      (pathIds g targets mastered vels) := by
  have hcnd := nodup_unmasteredOf g targets mastered
  have hinit := toposortLoop_strongGood g (unmasteredOf g targets mastered)
    (fun cid => (conceptWeight g mastered vels cid).getD 2) hcnd
    (2 * (unmasteredOf g targets mastered).length + 1)
    (initQueue g (unmasteredOf g targets mastered)
      (initInDeg g (unmasteredOf g targets mastered)))
    [] [] (initInDeg g (unmasteredOf g targets mastered))
    rfl
    (fun d hd => absurd hd (List.not_mem_nil d))
    (by
      rw [List.nil_append]
      exact ((initQueue_map_perm g (unmasteredOf g targets mastered)
        (initInDeg g (unmasteredOf g targets mastered))).nodup_iff).mpr
        (hcnd.filter _))
    (fun n hn => absurd hn (by simp))
    (by
      intro c hc _
      rw [initInDeg, if_pos hc]
      simp [occCount])
    (by
      intro qe hqe
      obtain ⟨hqc, hqz⟩ := mem_initQueue_snd g (unmasteredOf g targets mastered)
        (initInDeg g (unmasteredOf g targets mastered)) qe hqe
      have hocc : occCount g (unmasteredOf g targets mastered) qe.2 = 0 := by
        rw [initInDeg, if_pos hqc] at hqz
        exact_mod_cast hqz
      refine ⟨hqc, ?_, le_of_eq hqz⟩
      intro p hp hpc
      exfalso
      rw [occCount, List.countP_eq_zero] at hocc
      exact absurd (decide_eq_true hpc) (by simpa using hocc p hp))
  exact hinit

/-- In-set prerequisites of one concept: one step of the induced
prerequisite subgraph on the working set. -/
def prereqStep (g : Graph) (concepts : List String) (c : String) : List String :=
  (getPrerequisites g c).filter (fun p => decide (p ∈ concepts))

/-- Bounded saturation of a frontier under in-set prerequisite steps. -/
def reachAux (g : Graph) (concepts : List String) : ℕ → List String → List String
  | 0, s => s
  | n + 1, s => reachAux g concepts n
      ((s ++ s.flatMap (prereqStep g concepts)).eraseDups)

/-- The induced prerequisite subgraph on the working set is acyclic: no
member of the set reaches itself through a nonempty chain of in-set
prerequisite edges. -/
def InducedAcyclic (g : Graph) (concepts : List String) : Prop :=
  ∀ c ∈ concepts,
    c ∉ reachAux g concepts concepts.length (prereqStep g concepts c)

instance (g : Graph) (concepts : List String) :
    Decidable (InducedAcyclic g concepts) :=
  inferInstanceAs (Decidable (∀ c ∈ concepts,
    c ∉ reachAux g concepts concepts.length (prereqStep g concepts c)))

/-- The two-node example of the specification: `A` has no prerequisites,
`B` requires `A`. -/
def abGraph : Graph :=
  [⟨"A", "d", 1, [], [], 2⟩, ⟨"B", "d", 1, ["A"], [], 2⟩]

/-- A two-node prerequisite cycle: `cycA` requires `cycB` and vice versa. -/
def cycleGraph : Graph :=
  [⟨"cycA", "d", 1, ["cycB"], [], 2⟩, ⟨"cycB", "d", 1, ["cycA"], [], 2⟩]

/-- C1: on every input whose induced prerequisite subgraph on the
unmastered working set is acyclic, the path returned by
`compute_learning_path` is topologically valid: each in-set prerequisite
of the concept at any position already occurs among the strictly earlier
entries (so every concept is placed strictly after each of its
prerequisites appearing in the list). -/
theorem C1_learning_path_topological (g : Graph) (targets mastered : List String)
    (vels : List (String × ℚ))
    (hacyc : InducedAcyclic g (unmasteredOf g targets mastered)) :
    StrongGood g (unmasteredOf g targets mastered)
      (pathIds g targets mastered vels) :=
  pathIds_strongGood g targets mastered vels

/-- C1 witness: the specification's two-node example. The induced
subgraph for target `B` with nothing mastered is acyclic, the path is
exactly `[A, B]`, and the theorem applies, placing `A` before `B`. -/
theorem C1_learning_path_topological_witness :
    InducedAcyclic abGraph (unmasteredOf abGraph ["B"] []) ∧
      pathIds abGraph ["B"] [] [] = ["A", "B"] ∧
      StrongGood abGraph (unmasteredOf abGraph ["B"] [])
        (pathIds abGraph ["B"] [] []) :=
  ⟨by decide, by decide,
    C1_learning_path_topological abGraph ["B"] [] [] (by decide)⟩

/-- C2 counterexample: the claim that a prerequisite cycle among the
unmastered working set is surfaced to the caller — in particular that the
cyclic nodes are not silently dropped from the returned path — is false:
`compute_learning_path` on the two-node cycle returns a path omitting the
cyclic node, with no error channel at all. -/
theorem C2_cycle_error_counterexample :
    ¬ (∀ (g : Graph) (targets mastered : List String)
        (vels : List (String × ℚ)) (c : String),
        OnPrereqCycle g (unmasteredOf g targets mastered) c →
        c ∈ pathIds g targets mastered vels) := by
  intro h
  have h2 := h cycleGraph ["cycA"] [] [] "cycA"
    ⟨["cycA", "cycB"], by decide, by decide, by decide⟩
  revert h2
  decide

/-- C2 (amended): `_transfer_optimized_toposort` silently drops cyclic
nodes — every concept lying on an in-set prerequisite cycle of the
unmastered working set is absent from the path returned by
`compute_learning_path`, and no error is raised (the function is total). -/
theorem C2_cycle_nodes_dropped (g : Graph) (targets mastered : List String)
    (vels : List (String × ℚ)) (c : String)
    (hcyc : OnPrereqCycle g (unmasteredOf g targets mastered) c) :
    c ∉ pathIds g targets mastered vels :=
  strongGood_not_mem_of_cycle g (unmasteredOf g targets mastered)
    (pathIds g targets mastered vels) c
    (pathIds_strongGood g targets mastered vels) hcyc

/-- C2 witness: `cycA` lies on the two-node cycle of `cycleGraph` and is
indeed dropped from the computed path. -/
theorem C2_cycle_nodes_dropped_witness :
    OnPrereqCycle cycleGraph (unmasteredOf cycleGraph ["cycA"] []) "cycA" ∧
      "cycA" ∉ pathIds cycleGraph ["cycA"] [] [] :=
  ⟨⟨["cycA", "cycB"], by decide, by decide, by decide⟩,
    C2_cycle_nodes_dropped cycleGraph ["cycA"] [] [] "cycA"
      ⟨["cycA", "cycB"], by decide, by decide, by decide⟩⟩
